import Mathlib

/-!
AES-GCM sealing (`go-aesgcm`): a shallow embedding of `aesgcm.go`.

Bytes, `uint32`, `uint64` and `int` values are natural numbers; a byte slice or a
`[16]byte` array is a `List Nat`.  Wrap-around of machine integers is written as an
explicit `% 2 ^ w`.  A Go run-time panic (slice index out of range, nil dereference) is
the outer `none` of an `Option`; a Go result `([]byte, error)` is a pair of options in
which `none` stands for `nil`.

The one-block cipher of `crypto/aes` is a parameter `E key block` of the development;
theorems that need its contract (a 16-byte block in, a 16-byte block out) assume
`BlockCipher E`.  The values of type `uint128` are pairs of words; theorems about the
field arithmetic assume that both words are below `2 ^ 64` (`uint128.wf`).
-/

namespace GoAesGcm

/-! ## Go builtins and the standard library -/

/-- The constant `size = 16` of `aesgcm.go`. -/
def size : Nat := 16

/-- Go `make([]byte, n)`: `n` zero bytes. -/
def make (n : Nat) : List Nat := List.replicate n 0

/-- Go `copy(dst, src)`: the first `min (len dst) (len src)` bytes of `dst` are
overwritten with those of `src`; the length of `dst` does not change. -/
def copy (dst src : List Nat) : List Nat :=
  src.take dst.length ++ dst.drop src.length

/-- The function `binary.BigEndian.Uint32`, on a slice of at least four bytes. -/
def Uint32 (b : List Nat) : Nat :=
  b.getD 3 0 ||| b.getD 2 0 <<< 8 ||| b.getD 1 0 <<< 16 ||| b.getD 0 0 <<< 24

/-- The function `binary.BigEndian.PutUint32`, on a slice of at least four bytes;
`byte(x)` is `x % 256`. -/
def PutUint32 (b : List Nat) (v : Nat) : List Nat :=
  (((b.set 0 ((v >>> 24) % 256)).set 1 ((v >>> 16) % 256)).set 2 ((v >>> 8) % 256)).set 3
    (v % 256)

/-- The function `binary.BigEndian.Uint64`, on a slice of at least eight bytes. -/
def Uint64 (b : List Nat) : Nat :=
  b.getD 7 0 ||| b.getD 6 0 <<< 8 ||| b.getD 5 0 <<< 16 ||| b.getD 4 0 <<< 24 |||
    b.getD 3 0 <<< 32 ||| b.getD 2 0 <<< 40 ||| b.getD 1 0 <<< 48 ||| b.getD 0 0 <<< 56

/-- The function `binary.BigEndian.PutUint64`, on a slice of at least eight bytes. -/
def PutUint64 (b : List Nat) (v : Nat) : List Nat :=
  (((((((b.set 0 ((v >>> 56) % 256)).set 1 ((v >>> 48) % 256)).set 2
    ((v >>> 40) % 256)).set 3 ((v >>> 32) % 256)).set 4 ((v >>> 24) % 256)).set 5
    ((v >>> 16) % 256)).set 6 ((v >>> 8) % 256)).set 7 (v % 256)

/-- Go errors that the package can return: `aes.KeySizeError`. -/
inductive GoError where
  | KeySizeError (k : Nat)
deriving DecidableEq, Repr

/-- A Go result `([]byte, error)`; `none` is `nil`. -/
abbrev Ret := Option (List Nat) × Option GoError

/-- The function `aes.NewCipher`: a block for a key of 16, 24 or 32 bytes, and
`(nil, KeySizeError(len(key)))` otherwise.  The block is the cipher `E` under `key`. -/
def NewCipher (E : List Nat → List Nat → List Nat) (key : List Nat) :
    Option (List Nat → List Nat) × Option GoError :=
  if key.length = 16 ∨ key.length = 24 ∨ key.length = 32 then (some (E key), none)
  else (none, some (GoError.KeySizeError key.length))

/-- The method `Encrypt(dst, src)` of a cipher block: panics when `src` or `dst` is
shorter than one block, otherwise writes the encryption of `src[:16]` to `dst[:16]`. -/
def Encrypt (block : List Nat → List Nat) (dst src : List Nat) : Option (List Nat) :=
  if src.length < size ∨ dst.length < size then none
  else some (copy dst ((block (src.take size)).take size))

/-! ## Counter blocks -/

/-- Source: `genCounter`. -/
def genCounter (nonce : List Nat) : List Nat :=
  let counter := make size
  let counter := copy counter nonce
  counter.set (size - 1) 1

/-- Source: `incrementCounter`.  The slice `c` is `counter[size-4:]`. -/
def incrementCounter (counter : List Nat) : List Nat :=
  let c := counter.drop (size - 4)
  let c := PutUint32 c ((Uint32 c + 1) % 2 ^ 32)
  counter.take (size - 4) ++ copy (counter.drop (size - 4)) c

/-! ## Counter mode -/

/-- The loop `for i, rv := range r { ll[i] ^= rv }` of `xors`, from index `i` on; an
index outside `ll` panics. -/
def xorsLoop : List Nat → Nat → List Nat → Option (List Nat)
  | [], _, ll => some ll
  | rv :: r, i, ll =>
    if i < ll.length then xorsLoop r (i + 1) (ll.set i (ll.getD i 0 ^^^ rv)) else none

/-- Source: `xors`. -/
def xors (l r : List Nat) : Option (List Nat) :=
  let ll := copy (make l.length) l
  xorsLoop r 0 ll

/-- The loop of `encWitchCounter`: the first argument counts the iterations that remain
(`blockNum - i`), the state is the buffer `ct` and the counter `c`. -/
def encLoop (block : List Nat → List Nat) :
    Nat → Nat → List Nat → List Nat → Option (List Nat × List Nat)
  | 0, _, ct, c => some (ct, c)
  | n + 1, i, ct, c =>
    let start := size * i
    let stop := size * (i + 1)
    if ct.length < stop then none
    else
      let pt := (ct.take stop).drop start
      match Encrypt block (make size) c with
      | none => none
      | some mask =>
        match xors pt mask with
        | none => none
        | some x =>
          encLoop block n (i + 1) (ct.take start ++ copy pt x ++ ct.drop stop)
            (incrementCounter c)

/-- Source: `encWitchCounter`. -/
def encWitchCounter (E : List Nat → List Nat → List Nat)
    (plaintext key nonce c : List Nat) : Option Ret :=
  let blockNum := plaintext.length / size
  let r := plaintext.length % size
  let blockNum := if r ≠ 0 then blockNum + 1 else blockNum
  let ct := copy (make (blockNum * size)) plaintext
  match NewCipher E key with
  | (_, some err) => some (none, some err)
  | (none, none) => none
  | (some block, none) =>
    match encLoop block blockNum 0 ct c with
    | none => none
    | some (ct, _) => some (some (ct.take plaintext.length), none)

/-- Source: `enc`. -/
def enc (E : List Nat → List Nat → List Nat) (plaintext key nonce : List Nat) :
    Option Ret :=
  encWitchCounter E plaintext key nonce (genCounter nonce)

/-! ## Arithmetic in GF(2^128) -/

/-- Modelled from the spec: the type `uint128`, whose declaration is not among the
sources; two unsigned 64-bit words, high (`lhs`) and low (`rhs`), as its uses in
`aesgcm.go` and in the tests show. -/
structure uint128 where
  lhs : Nat
  rhs : Nat
deriving DecidableEq, Repr

/-- The words of a `uint128` are 64-bit values. -/
def uint128.wf (u : uint128) : Prop := u.lhs < 2 ^ 64 ∧ u.rhs < 2 ^ 64

instance (u : uint128) : Decidable u.wf := by
  unfold uint128.wf; exact inferInstance

/-- The 128-bit number held by a `uint128`. -/
def uint128.toNat (u : uint128) : Nat := u.lhs * 2 ^ 64 + u.rhs

/-- The `uint128` holding the low 128 bits of a number. -/
def uint128.ofNat (n : Nat) : uint128 := ⟨n / 2 ^ 64 % 2 ^ 64, n % 2 ^ 64⟩

/-- Modelled from the spec: the method `xor` of `uint128`, whose declaration is not
among the sources; the plain 128-bit bitwise exclusive or. -/
def uint128.xor (u v : uint128) : uint128 := ⟨u.lhs ^^^ v.lhs, u.rhs ^^^ v.rhs⟩

/-- Modelled from the spec: the method `and` of `uint128`, whose declaration is not
among the sources; the plain 128-bit bitwise and. -/
def uint128.and (u v : uint128) : uint128 := ⟨u.lhs &&& v.lhs, u.rhs &&& v.rhs⟩

/-- Modelled from the spec: the method `rightShift(n)` of `uint128`, whose declaration
is not among the sources; the logical right shift of the 128-bit value by `n` bits. -/
def uint128.rightShift (u : uint128) (n : Nat) : uint128 :=
  uint128.ofNat (u.toNat >>> n)

/-- Source: `max128`. -/
def max128 : uint128 := ⟨0xe100000000000000, 0x0000000000000000⟩

/-- Source: `add`. -/
def add (lhs rhs : uint128) : uint128 := lhs.xor rhs

/-- Source: `rightShift` (the package-level function). -/
def rightShift (u : uint128) : uint128 :=
  if u.and ⟨0, 1⟩ = ⟨0, 1⟩ then
    let u := u.rightShift 1
    add u max128
  else u.rightShift 1

/-- The loop `for b := 127; b >= 0; b--` of `mul`, entered with `b + 1` as first
argument; the state is `rhs` and `sum`. -/
def mulLoop (lhs : uint128) : Nat → uint128 → uint128 → uint128
  | 0, _, sum => sum
  | b + 1, rhs, sum =>
    let sum := if (lhs.rightShift b).and ⟨0, 1⟩ = ⟨0, 1⟩ then add sum rhs else sum
    mulLoop lhs b (rightShift rhs) sum

/-- Source: `mul`. -/
def mul (lhs rhs : uint128) : uint128 := mulLoop lhs 128 rhs ⟨0, 0⟩

/-! ## GHASH -/

/-- Source: `newUint128`.  The slices `in[:8]` and `in[8:]` and the two reads of eight
bytes panic exactly when `in` has fewer than 16 bytes. -/
def newUint128 (inp : List Nat) : Option uint128 :=
  if inp.length < 16 then none
  else some ⟨Uint64 (inp.take 8), Uint64 (inp.drop 8)⟩

/-- The loop `for i := 0; i < len(in); i += 16` of `split`, with the values sent on the
channel collected in order.  The first argument is fuel; `len(in)` iterations are
enough because `i` grows by 16 each time. -/
def splitLoop (inp : List Nat) : Nat → Nat → Option (List uint128)
  | 0, i => if i < inp.length then none else some []
  | fuel + 1, i =>
    if i < inp.length then
      let out := copy (make 16) (inp.drop i)
      match newUint128 out with
      | none => none
      | some v =>
        match splitLoop inp fuel (i + 16) with
        | none => none
        | some vs => some (v :: vs)
    else some []

/-- Source: `split`.  The receiver ranges over the channel, so it sees the values in
the order in which the loop sends them. -/
def split (inp : List Nat) : Option (List uint128) := splitLoop inp inp.length 0

/-- Source: `ghash`. -/
def ghash (cipherText additionalData hk : List Nat) : Option (List Nat) :=
  match newUint128 hk with
  | none => none
  | some h =>
    match split additionalData with
    | none => none
    | some ads =>
      let x := ads.foldl (fun x v => mul (add x v) h) (⟨0, 0⟩ : uint128)
      match split cipherText with
      | none => none
      | some cts =>
        let x := cts.foldl (fun x v => mul (add x v) h) x
        let x := mul (add x ⟨(additionalData.length * 8) % 2 ^ 64,
          (cipherText.length * 8) % 2 ^ 64⟩) h
        let hashed := make 16
        some (PutUint64 (hashed.take 8) x.lhs ++ PutUint64 (hashed.drop 8) x.rhs)

/-! ## Seal -/

/-- Source: `Seal`. -/
def Seal (E : List Nat → List Nat → List Nat)
    (plaintext key nonce additionalData : List Nat) : Option Ret :=
  let counter := incrementCounter (genCounter nonce)
  match encWitchCounter E plaintext key nonce counter with
  | none => none
  | some (_, some err) => some (none, some err)
  | some (ct, none) =>
    let ct := ct.getD []
    match (NewCipher E key).1 with
    | none => none
    | some block =>
      match Encrypt block (make 16) (make 16) with
      | none => none
      | some hk =>
        match ghash ct additionalData hk with
        | none => none
        | some xx =>
          match Encrypt block (make 16) (genCounter nonce) with
          | none => none
          | some encryptedCounter =>
            match xors encryptedCounter xx with
            | none => none
            | some tags => some (some (ct ++ tags), none)

/-! ## Specification-side definitions -/

/-- The contract of the one-block cipher: under a key of a supported length, a 16-byte
block is encrypted to a 16-byte block. -/
def BlockCipher (E : List Nat → List Nat → List Nat) : Prop :=
  ∀ key b : List Nat, (key.length = 16 ∨ key.length = 24 ∨ key.length = 32) →
    b.length = 16 → (E key b).length = 16

/-- The value of a byte string read as a big-endian number. -/
def beValue (bs : List Nat) : Nat := bs.foldl (fun acc b => acc * 256 + b) 0

/-- The `k`-th 16-byte block of a byte string, padded with zero bytes on the right. -/
def blockOf (inp : List Nat) (k : Nat) : List Nat :=
  (inp.drop (16 * k)).take 16 ++ List.replicate (16 - ((inp.drop (16 * k)).take 16).length) 0

/-- The `k`-th block as a field element: the first eight bytes are the high word. -/
def blockElem (inp : List Nat) (k : Nat) : uint128 :=
  ⟨beValue ((blockOf inp k).take 8), beValue ((blockOf inp k).drop 8)⟩

/-- The `ceil(len / 16)` blocks of a byte string, in order. -/
def blocksOf (inp : List Nat) : List uint128 :=
  (List.range ((inp.length + 15) / 16)).map (blockElem inp)

/-- The eight bytes of a 64-bit word, most significant first. -/
def beBytes64 (v : Nat) : List Nat := (List.range 8).map (fun j => v / 256 ^ (7 - j) % 256)

/-- GHASH as the specification words it: Horner accumulation over the blocks of the
associated data, the blocks of the ciphertext and the length block, serialised high
word first. -/
def ghashSpec (cipherText additionalData hk : List Nat) : List Nat :=
  let H : uint128 := ⟨beValue (hk.take 8), beValue (hk.drop 8)⟩
  let lengths : uint128 :=
    ⟨8 * additionalData.length % 2 ^ 64, 8 * cipherText.length % 2 ^ 64⟩
  let x := (blocksOf additionalData ++ blocksOf cipherText ++ [lengths]).foldl
    (fun x B => mul (add x B) H) ⟨0, 0⟩
  beBytes64 x.lhs ++ beBytes64 x.rhs

/-- The four bytes of a 32-bit word, most significant first. -/
def beBytes32 (v : Nat) : List Nat := [v / 2 ^ 24 % 256, v / 2 ^ 16 % 256, v / 2 ^ 8 % 256, v % 256]

/-- The reduction polynomial `x^128 + x^7 + x^2 + x + 1` over GF(2). -/
noncomputable def gcmPoly : Polynomial (ZMod 2) :=
  Polynomial.X ^ 128 + Polynomial.X ^ 7 + Polynomial.X ^ 2 + Polynomial.X + 1

/-- The `i`-th bit of a `uint128`, counted from the most significant bit of the high
word. -/
def uint128.bit (u : uint128) (i : Nat) : Bool :=
  if i < 64 then u.lhs.testBit (63 - i) else u.rhs.testBit (127 - i)

/-- The polynomial over GF(2) of a `uint128` under the GCM convention: the coefficient
of `x^i` is the `i`-th bit counted from the most significant bit of the high word. -/
noncomputable def toPoly (u : uint128) : Polynomial (ZMod 2) :=
  Finset.sum (Finset.range 128) (fun i => if u.bit i then Polynomial.X ^ i else 0)

/-- The `n` bytes of a number, most significant first. -/
def beBytes (n v : Nat) : List Nat := (List.range n).map (fun j => v / 256 ^ (n - 1 - j) % 256)

/-- The counter block `c + j` of standard counter mode: the 16 bytes of `c` are one
big-endian 128-bit integer, to which `j` is added modulo `2 ^ 128`. -/
def ctrBlock (c : List Nat) (j : Nat) : List Nat := beBytes 16 ((beValue c + j) % 2 ^ 128)

/-- Standard counter mode as `cipher.NewCTR` and `XORKeyStream` compute it: the data,
exclusive-or the first `len(data)` bytes of `E(key, c) ‖ E(key, c + 1) ‖ E(key, c + 2) ‖ …`. -/
def stdCTR (E : List Nat → List Nat → List Nat) (key c data : List Nat) : List Nat :=
  List.zipWith (· ^^^ ·) data
    (((List.range ((data.length + 15) / 16)).map (fun j => E key (ctrBlock c j))).flatten.take
      data.length)

/-- A toy one-block cipher for concrete instances: the block, exclusive-or the first 16
bytes of the key. -/
def xorCipher (key b : List Nat) : List Nat := List.zipWith (· ^^^ ·) (key.take 16) b

/-! ## Lists, copies and exclusive or -/

theorem length_make (n : Nat) : (make n).length = n := by simp [make]

theorem length_copy (dst src : List Nat) : (copy dst src).length = dst.length := by
  simp [copy]; omega

theorem copy_eq_of_length_eq (dst src : List Nat) (h : src.length = dst.length) :
    copy dst src = src := by
  simp [copy, ← h]

theorem get_make (n k : Nat) : (make n)[k]?.getD 0 = 0 := by
  simp [make, List.getElem?_replicate]
  split <;> simp

theorem get_of_length_le {a : List Nat} {k : Nat} (h : a.length ≤ k) : a[k]?.getD 0 = 0 := by
  simp [List.getElem?_eq_none h]

theorem get_copy (dst src : List Nat) (k : Nat) :
    (copy dst src)[k]?.getD 0 =
      if k < src.length ∧ k < dst.length then src[k]?.getD 0 else dst[k]?.getD 0 := by
  simp only [copy, List.getElem?_append, List.length_take,
    List.getElem?_take, List.getElem?_drop]
  by_cases h1 : k < src.length <;> by_cases h2 : k < dst.length
  · simp [h1, h2]
  · have : ¬ k < min dst.length src.length := by omega
    simp only [this, if_false, h2, and_false]
    rw [List.getElem?_eq_none (by omega), List.getElem?_eq_none (by omega)]
  · have : ¬ k < min dst.length src.length := by omega
    simp only [this, if_false, h1, false_and]
    congr 2; omega
  · have : ¬ k < min dst.length src.length := by omega
    simp only [this, if_false, h1, false_and]
    rw [List.getElem?_eq_none (by omega), List.getElem?_eq_none (by omega)]

theorem ext_get {a b : List Nat} (hl : a.length = b.length)
    (h : ∀ k, k < a.length → a[k]?.getD 0 = b[k]?.getD 0) : a = b := by
  apply List.ext_getElem hl
  intro k h1 h2
  have := h k h1
  simpa [List.getElem?_eq_getElem h1, List.getElem?_eq_getElem h2] using this

theorem xorsLoop_spec (r : List Nat) : ∀ (i : Nat) (ll : List Nat),
    i + r.length ≤ ll.length →
    ∃ out, xorsLoop r i ll = some out ∧ out.length = ll.length ∧
      ∀ k, out[k]?.getD 0 =
        if i ≤ k ∧ k < i + r.length then ll[k]?.getD 0 ^^^ r[k - i]?.getD 0
        else ll[k]?.getD 0 := by
  induction r with
  | nil => intro i ll _; exact ⟨ll, rfl, rfl, by simp⟩
  | cons rv r ih =>
    intro i ll h
    simp only [List.length_cons] at h
    have hi : i < ll.length := by omega
    obtain ⟨out, h1, h2, h3⟩ := ih (i + 1) (ll.set i (ll.getD i 0 ^^^ rv))
      (by simp; omega)
    refine ⟨out, ?_, ?_, ?_⟩
    · simp only [xorsLoop, hi, if_true, h1]
    · simpa using h2
    · intro k
      rw [h3 k]
      simp only [List.length_cons, List.getD_eq_getElem?_getD, List.getElem?_set]
      by_cases hk : k = i
      · subst hk
        simp [hi]
      · by_cases hk2 : i + 1 ≤ k ∧ k < i + 1 + r.length
        · have : i ≤ k ∧ k < i + (r.length + 1) := by omega
          have e : k - i = (k - (i + 1)) + 1 := by omega
          simp [hk2, this, Ne.symm hk, e]
        · have : ¬ (i ≤ k ∧ k < i + (r.length + 1)) := by omega
          simp [hk2, this, Ne.symm hk]

theorem xors_spec (l r : List Nat) (h : r.length ≤ l.length) :
    ∃ out, xors l r = some out ∧ out.length = l.length ∧
      ∀ k : Nat, out[k]?.getD 0 = l[k]?.getD 0 ^^^ r[k]?.getD 0 := by
  obtain ⟨out, h1, h2, h3⟩ := xorsLoop_spec r 0 (copy (make l.length) l)
    (by simp [length_copy, length_make]; exact h)
  refine ⟨out, h1, by simpa [length_copy, length_make] using h2, ?_⟩
  intro k
  rw [h3 k, copy_eq_of_length_eq _ _ (by simp [length_make])]
  by_cases hk : k < r.length
  · simp [hk]
  · simp [hk, get_of_length_le (le_of_not_lt hk)]

theorem xors_eq_zipWith (l r : List Nat) (h : r.length = l.length) :
    xors l r = some (List.zipWith (· ^^^ ·) l r) := by
  obtain ⟨out, h1, h2, h3⟩ := xors_spec l r (le_of_eq h)
  rw [h1]
  congr 1
  apply ext_get (by simp [h2, h])
  intro k hk
  rw [h3 k]
  simp only [List.getElem?_zipWith]
  have hk1 : k < l.length := by omega
  have hk2 : k < r.length := by omega
  simp [List.getElem?_eq_getElem hk1, List.getElem?_eq_getElem hk2]

theorem length_incrementCounter (c : List Nat) (h : c.length = 16) :
    (incrementCounter c).length = 16 := by
  simp [incrementCounter, length_copy, size, h]

theorem length_iterate_incrementCounter (c : List Nat) (h : c.length = 16) (n : Nat) :
    (incrementCounter^[n] c).length = 16 := by
  induction n generalizing c with
  | zero => simpa using h
  | succ n ih =>
    rw [Function.iterate_succ_apply]
    exact ih _ (length_incrementCounter c h)

theorem Encrypt_block (block : List Nat → List Nat)
    (hb : ∀ b : List Nat, b.length = 16 → (block b).length = 16)
    (c : List Nat) (hc : c.length = 16) : Encrypt block (make 16) c = some (block c) := by
  have h1 : c.take 16 = c := by simp [hc]
  have h2 : (block c).take 16 = block c := by simp [hb c hc]
  simp only [Encrypt, hc, length_make, size, lt_irrefl, or_self, if_false]
  rw [h1, h2, copy_eq_of_length_eq _ _ (by simp [length_make, hb c hc])]

theorem encLoop_spec (block : List Nat → List Nat)
    (hb : ∀ b : List Nat, b.length = 16 → (block b).length = 16) :
    ∀ (n i : Nat) (ct c : List Nat), c.length = 16 → 16 * (i + n) ≤ ct.length →
    ∃ out, encLoop block n i ct c = some (out, incrementCounter^[n] c) ∧
      out.length = ct.length ∧
      ∀ k : Nat, out[k]?.getD 0 =
        if 16 * i ≤ k ∧ k < 16 * (i + n) then
          ct[k]?.getD 0 ^^^ (block (incrementCounter^[k / 16 - i] c))[k % 16]?.getD 0
        else ct[k]?.getD 0 := by
  intro n
  induction n with
  | zero =>
    intro i ct c _ _
    refine ⟨ct, rfl, rfl, ?_⟩
    intro k
    rw [if_neg (by omega)]
  | succ n ih =>
    intro i ct c hc hlen
    have hstop : ¬ ct.length < 16 * (i + 1) := by omega
    have hpt : ((ct.take (16 * (i + 1))).drop (16 * i)).length = 16 := by
      simp only [List.length_drop, List.length_take, size]; omega
    obtain ⟨x, hx1, hx2, hx3⟩ := xors_spec ((ct.take (16 * (i + 1))).drop (16 * i))
      (block c) (by rw [hb c hc, hpt])
    have hnew : (ct.take (16 * i) ++ copy ((ct.take (16 * (i + 1))).drop (16 * i)) x ++
        ct.drop (16 * (i + 1))).length = ct.length := by
      simp only [List.length_append, length_copy, hpt, List.length_take, List.length_drop, size]
      omega
    obtain ⟨out, ho1, ho2, ho3⟩ := ih (i + 1) _ (incrementCounter c)
      (length_incrementCounter c hc) (by rw [hnew]; omega)
    refine ⟨out, ?_, ?_, ?_⟩
    · rw [encLoop]
      simp only [size, hstop, if_false, Encrypt_block block hb c hc, hx1]
      rw [ho1, Function.iterate_succ_apply]
    · rw [ho2, hnew]
    · intro k
      rw [ho3 k]
      have hcopy : copy ((ct.take (16 * (i + 1))).drop (16 * i)) x = x :=
        copy_eq_of_length_eq _ _ (by rw [hx2])
      rw [hcopy]
      have hx2' : x.length = 16 := by rw [hx2, hpt]
      have hget : (ct.take (16 * i) ++ x ++ ct.drop (16 * (i + 1)))[k]?.getD 0 =
          if 16 * i ≤ k ∧ k < 16 * (i + 1) then
            ct[k]?.getD 0 ^^^ (block c)[k - 16 * i]?.getD 0
          else ct[k]?.getD 0 := by
        simp only [List.getElem?_append, List.length_append, List.length_take, hx2', size,
          List.getElem?_take, List.getElem?_drop]
        by_cases h1 : k < 16 * i
        · have a1 : k < min (16 * i) ct.length + 16 := by omega
          have a2 : k < min (16 * i) ct.length := by omega
          have a3 : ¬ (16 * i ≤ k ∧ k < 16 * (i + 1)) := by omega
          rw [if_pos a1, if_pos a2, if_neg a3, if_pos h1]
        · by_cases h2 : k < 16 * (i + 1)
          · have a1 : k < min (16 * i) ct.length + 16 := by omega
            have a2 : ¬ k < min (16 * i) ct.length := by omega
            have a3 : (16 * i ≤ k ∧ k < 16 * (i + 1)) := by omega
            have a4 : k - min (16 * i) ct.length = k - 16 * i := by omega
            rw [if_pos a1, if_neg a2, if_pos a3, a4, hx3]
            simp only [List.getElem?_take, List.getElem?_drop, size]
            have a5 : 16 * i + (k - 16 * i) = k := by omega
            rw [a5, if_pos h2]
          · have a1 : ¬ k < min (16 * i) ct.length + 16 := by omega
            have a3 : ¬ (16 * i ≤ k ∧ k < 16 * (i + 1)) := by omega
            have a4 : 16 * (i + 1) + (k - (min (16 * i) ct.length + 16)) = k := by omega
            rw [if_neg a1, if_neg a3, a4]
      rw [hget]
      by_cases h1 : 16 * (i + 1) ≤ k ∧ k < 16 * (i + 1 + n)
      · have a1 : ¬ (16 * i ≤ k ∧ k < 16 * (i + 1)) := by omega
        have a2 : 16 * i ≤ k ∧ k < 16 * (i + (n + 1)) := by omega
        have a3 : k / 16 - i = (k / 16 - (i + 1)) + 1 := by omega
        rw [if_pos h1, if_neg a1, if_pos a2, a3, Function.iterate_succ_apply]
      · by_cases h2 : 16 * i ≤ k ∧ k < 16 * (i + 1)
        · have a2 : 16 * i ≤ k ∧ k < 16 * (i + (n + 1)) := by omega
          have a3 : k / 16 - i = 0 := by omega
          have a4 : k - 16 * i = k % 16 := by omega
          rw [if_neg h1, if_pos h2, if_pos a2, a3, a4, Function.iterate_zero, id_eq]
        · have a2 : ¬ (16 * i ≤ k ∧ k < 16 * (i + (n + 1))) := by omega
          rw [if_neg h1, if_neg h2, if_neg a2]


theorem encWitchCounter_spec (E : List Nat → List Nat → List Nat) (hE : BlockCipher E)
    (plaintext key nonce c : List Nat)
    (hk : key.length = 16 ∨ key.length = 24 ∨ key.length = 32) (hc : c.length = 16) :
    ∃ out, encWitchCounter E plaintext key nonce c = some (some out, none) ∧
      out.length = plaintext.length ∧
      ∀ k : Nat, k < plaintext.length → out[k]?.getD 0 =
        plaintext[k]?.getD 0 ^^^ (E key (incrementCounter^[k / 16] c))[k % 16]?.getD 0 := by
  obtain ⟨n, hn⟩ : ∃ n, n = (if plaintext.length % size ≠ 0 then plaintext.length / size + 1
      else plaintext.length / size) := ⟨_, rfl⟩
  have hn1 : plaintext.length ≤ 16 * n := by
    rw [hn]; simp only [size]; split <;> omega
  obtain ⟨out, h1, h2, h3⟩ := encLoop_spec (E key) (fun b hb => hE key b hk hb) n 0
    (copy (make (n * size)) plaintext) c hc
    (by simp only [length_copy, length_make, size]; omega)
  refine ⟨out.take plaintext.length, ?_, ?_, ?_⟩
  · simp only [encWitchCounter, NewCipher, hk, if_true, ← hn, h1]
  · simp only [List.length_take, h2, length_copy, length_make, size]; omega
  · intro k hk1
    have a1 : 16 * 0 ≤ k ∧ k < 16 * (0 + n) := by omega
    have a2 : k < plaintext.length ∧ k < (make (n * size)).length := by
      simp only [length_make, size]; omega
    rw [List.getElem?_take, if_pos hk1, h3 k, if_pos a1, get_copy, if_pos a2, Nat.sub_zero]

/-! ## GHASH: the code against its arithmetic description -/

theorem lor_shiftLeft (x b k : Nat) (h : x < 2 ^ k) : x ||| b <<< k = b * 2 ^ k + x := by
  rw [Nat.lor_comm, Nat.shiftLeft_eq, Nat.mul_comm b, ← Nat.mul_add_lt_is_or h]

theorem Uint64_eq_beValue (b : List Nat) (hl : b.length = 8) (hb : ∀ x ∈ b, x < 256) :
    Uint64 b = beValue b := by
  match b, hl with
  | [b0, b1, b2, b3, b4, b5, b6, b7], _ =>
    simp only [List.mem_cons, List.mem_singleton, forall_eq_or_imp, forall_eq,
      List.not_mem_nil, false_implies, implies_true, and_true] at hb
    obtain ⟨h0, h1, h2, h3, h4, h5, h6, h7⟩ := hb
    simp only [Uint64, beValue, List.foldl, List.getD_eq_getElem?_getD]
    simp only [List.getElem?_cons_succ, List.getElem?_cons_zero, Option.getD_some]
    rw [lor_shiftLeft _ _ 8 (by omega), lor_shiftLeft _ _ 16 (by omega),
      lor_shiftLeft _ _ 24 (by omega), lor_shiftLeft _ _ 32 (by omega),
      lor_shiftLeft _ _ 40 (by omega), lor_shiftLeft _ _ 48 (by omega),
      lor_shiftLeft _ _ 56 (by omega)]
    omega

theorem PutUint64_make (v : Nat) : PutUint64 (make 8) v = beBytes64 v := by
  simp [PutUint64, make, beBytes64, List.range, List.range.loop, Nat.shiftRight_eq_div_pow,
    List.replicate]

theorem copy_make_drop (inp : List Nat) (k : Nat) :
    copy (make 16) (inp.drop (16 * k)) = blockOf inp k := by
  simp only [copy, blockOf, make, List.length_replicate, List.drop_replicate,
    List.length_take, List.length_drop]
  congr 2
  omega

theorem length_blockOf (inp : List Nat) (k : Nat) : (blockOf inp k).length = 16 := by
  simp only [blockOf, List.length_append, List.length_take, List.length_drop,
    List.length_replicate]
  omega

theorem blockOf_lt (inp : List Nat) (hb : ∀ x ∈ inp, x < 256) (k : Nat) :
    ∀ x ∈ blockOf inp k, x < 256 := by
  intro x hx
  simp only [blockOf, List.mem_append, List.mem_replicate] at hx
  rcases hx with hx | ⟨_, hx⟩
  · exact hb x (List.mem_of_mem_drop (List.mem_of_mem_take hx))
  · omega

theorem newUint128_eq (b : List Nat) (hl : b.length = 16) (hb : ∀ x ∈ b, x < 256) :
    newUint128 b = some ⟨beValue (b.take 8), beValue (b.drop 8)⟩ := by
  have h1 : ¬ b.length < 16 := by omega
  simp only [newUint128, h1, if_false]
  rw [Uint64_eq_beValue (b.take 8) (by simp [hl]) (fun x hx => hb x (List.mem_of_mem_take hx)),
    Uint64_eq_beValue (b.drop 8) (by simp [hl]) (fun x hx => hb x (List.mem_of_mem_drop hx))]

theorem splitLoop_spec (inp : List Nat) (hb : ∀ x ∈ inp, x < 256) :
    ∀ (fuel k : Nat), inp.length ≤ 16 * (k + fuel) →
      splitLoop inp fuel (16 * k) =
        some ((List.range' k ((inp.length + 15) / 16 - k)).map (blockElem inp)) := by
  intro fuel
  induction fuel with
  | zero =>
    intro k h
    have h1 : ¬ 16 * k < inp.length := by omega
    have h2 : (inp.length + 15) / 16 - k = 0 := by omega
    simp only [splitLoop, h1, if_false, h2, List.range'_zero, List.map_nil]
  | succ fuel ih =>
    intro k h
    by_cases h1 : 16 * k < inp.length
    · have h2 : (inp.length + 15) / 16 - k = ((inp.length + 15) / 16 - (k + 1)) + 1 := by omega
      have h3 : 16 * k + 16 = 16 * (k + 1) := by omega
      rw [h2, List.range'_succ, List.map_cons]
      simp only [splitLoop, h1, if_true, copy_make_drop]
      rw [newUint128_eq _ (length_blockOf inp k) (blockOf_lt inp hb k), h3,
        ih (k + 1) (by omega)]
      rfl
    · have h2 : (inp.length + 15) / 16 - k = 0 := by omega
      simp only [splitLoop, h1, if_false, h2, List.range'_zero, List.map_nil]

theorem split_eq (inp : List Nat) (hb : ∀ x ∈ inp, x < 256) :
    split inp = some (blocksOf inp) := by
  have := splitLoop_spec inp hb inp.length 0 (by omega)
  simpa [split, blocksOf, List.range_eq_range'] using this

theorem ghash_eq (cipherText additionalData hk : List Nat) (hl : hk.length = 16)
    (hhk : ∀ x ∈ hk, x < 256) (hct : ∀ x ∈ cipherText, x < 256)
    (had : ∀ x ∈ additionalData, x < 256) :
    ghash cipherText additionalData hk = some (ghashSpec cipherText additionalData hk) := by
  have e8 : List.take 8 (make 16) = make 8 := by simp [make]
  have e8' : List.drop 8 (make 16) = make 8 := by simp [make]
  simp only [ghash, newUint128_eq hk hl hhk, split_eq _ hct, split_eq _ had, ghashSpec,
    List.foldl_append, List.foldl_cons, List.foldl_nil, e8, e8', PutUint64_make,
    Nat.mul_comm _ 8]

theorem length_ghashSpec (cipherText additionalData hk : List Nat) :
    (ghashSpec cipherText additionalData hk).length = 16 := by
  simp [ghashSpec, beBytes64]

/-! ## Seal: success and shape of the result -/

theorem length_genCounter (nonce : List Nat) : (genCounter nonce).length = 16 := by
  simp [genCounter, length_copy, length_make, size]

theorem splitLoop_total (inp : List Nat) :
    ∀ (fuel i : Nat), inp.length ≤ i + 16 * fuel → ∃ vs, splitLoop inp fuel i = some vs := by
  intro fuel
  induction fuel with
  | zero =>
    intro i h
    have h1 : ¬ i < inp.length := by omega
    exact ⟨[], by simp only [splitLoop, h1, if_false]⟩
  | succ fuel ih =>
    intro i h
    by_cases h1 : i < inp.length
    · obtain ⟨vs, hvs⟩ := ih (i + 16) (by omega)
      have h2 : ¬ (copy (make 16) (inp.drop i)).length < 16 := by
        simp [length_copy, length_make]
      simp only [splitLoop, h1, if_true, newUint128, h2, if_false, hvs]
      exact ⟨_, rfl⟩
    · exact ⟨[], by simp only [splitLoop, h1, if_false]⟩

theorem split_total (inp : List Nat) : ∃ vs, split inp = some vs :=
  splitLoop_total inp inp.length 0 (by omega)

theorem length_PutUint64 (b : List Nat) (v : Nat) : (PutUint64 b v).length = b.length := by
  simp [PutUint64]

theorem ghash_total (cipherText additionalData hk : List Nat) (hl : 16 ≤ hk.length) :
    ∃ g, ghash cipherText additionalData hk = some g ∧ g.length = 16 := by
  obtain ⟨ads, hads⟩ := split_total additionalData
  obtain ⟨cts, hcts⟩ := split_total cipherText
  have h1 : ¬ hk.length < 16 := by omega
  simp only [ghash, newUint128, h1, if_false, hads, hcts]
  exact ⟨_, rfl, by simp [length_PutUint64, make]⟩

theorem Seal_eq (E : List Nat → List Nat → List Nat) (hE : BlockCipher E)
    (plaintext key nonce additionalData : List Nat)
    (hk : key.length = 16 ∨ key.length = 24 ∨ key.length = 32) :
    ∃ ct g, encWitchCounter E plaintext key nonce (incrementCounter (genCounter nonce)) =
        some (some ct, none) ∧ ct.length = plaintext.length ∧
      ghash ct additionalData (E key (make 16)) = some g ∧ g.length = 16 ∧
      Seal E plaintext key nonce additionalData =
        some (some (ct ++ List.zipWith (· ^^^ ·) (E key (genCounter nonce)) g), none) := by
  have hJ : (genCounter nonce).length = 16 := length_genCounter nonce
  obtain ⟨ct, hct, hctl, _⟩ := encWitchCounter_spec E hE plaintext key nonce
    (incrementCounter (genCounter nonce)) hk (length_incrementCounter _ hJ)
  have hb : ∀ b : List Nat, b.length = 16 → (E key b).length = 16 := fun b h => hE key b hk h
  have hz : (E key (make 16)).length = 16 := hb _ (length_make 16)
  obtain ⟨g, hg, hgl⟩ := ghash_total ct additionalData (E key (make 16)) (le_of_eq hz.symm)
  refine ⟨ct, g, hct, hctl, hg, hgl, ?_⟩
  simp only [Seal, hct, NewCipher, hk, if_true, Option.getD_some,
    Encrypt_block (E key) hb _ (length_make 16), hg, Encrypt_block (E key) hb _ hJ,
    xors_eq_zipWith _ _ (hgl.trans (hb _ hJ).symm)]

theorem encWitchCounter_badKey (E : List Nat → List Nat → List Nat)
    (plaintext key nonce c : List Nat)
    (hk : ¬ (key.length = 16 ∨ key.length = 24 ∨ key.length = 32)) :
    encWitchCounter E plaintext key nonce c =
      some (none, some (GoError.KeySizeError key.length)) := by
  simp only [encWitchCounter, NewCipher, hk, if_false]

/-! ## The counter field -/

theorem Uint32_eq (b0 b1 b2 b3 : Nat) (h1 : b1 < 256) (h2 : b2 < 256) (h3 : b3 < 256) :
    Uint32 [b0, b1, b2, b3] = ((b0 * 256 + b1) * 256 + b2) * 256 + b3 := by
  simp only [Uint32, List.getD_eq_getElem?_getD, List.getElem?_cons_succ,
    List.getElem?_cons_zero, Option.getD_some]
  rw [lor_shiftLeft _ _ 8 (by omega), lor_shiftLeft _ _ 16 (by omega),
    lor_shiftLeft _ _ 24 (by omega)]
  omega

theorem PutUint32_eq (b0 b1 b2 b3 v : Nat) : PutUint32 [b0, b1, b2, b3] v = beBytes32 v := by
  simp [PutUint32, beBytes32, Nat.shiftRight_eq_div_pow]

theorem incrementCounter_append (p : List Nat) (hp : p.length = 12) (b0 b1 b2 b3 : Nat)
    (h1 : b1 < 256) (h2 : b2 < 256) (h3 : b3 < 256) :
    incrementCounter (p ++ [b0, b1, b2, b3]) =
      p ++ beBytes32 ((((b0 * 256 + b1) * 256 + b2) * 256 + b3 + 1) % 2 ^ 32) := by
  have e1 : (p ++ [b0, b1, b2, b3]).drop 12 = [b0, b1, b2, b3] := by
    rw [← hp, List.drop_left]
  have e2 : (p ++ [b0, b1, b2, b3]).take 12 = p := by
    rw [← hp, List.take_left]
  simp only [incrementCounter, size, Nat.reduceSub, e1, e2, Uint32_eq b0 b1 b2 b3 h1 h2 h3,
    PutUint32_eq]
  rw [copy_eq_of_length_eq _ _ (by simp [beBytes32])]

theorem incrementCounter_beBytes32 (p : List Nat) (hp : p.length = 12) (v : Nat)
    (hv : v < 2 ^ 32) :
    incrementCounter (p ++ beBytes32 v) = p ++ beBytes32 ((v + 1) % 2 ^ 32) := by
  have e := incrementCounter_append p hp (v / 2 ^ 24 % 256) (v / 2 ^ 16 % 256)
    (v / 2 ^ 8 % 256) (v % 256) (Nat.mod_lt _ (by norm_num)) (Nat.mod_lt _ (by norm_num))
    (Nat.mod_lt _ (by norm_num))
  have e2 : ((v / 2 ^ 24 % 256 * 256 + v / 2 ^ 16 % 256) * 256 + v / 2 ^ 8 % 256) * 256 +
      v % 256 = v := by omega
  rw [e2] at e
  exact e

theorem iterate_incrementCounter_beBytes32 (p : List Nat) (hp : p.length = 12) (n : Nat) :
    ∀ v, v < 2 ^ 32 →
      incrementCounter^[n] (p ++ beBytes32 v) = p ++ beBytes32 ((v + n) % 2 ^ 32) := by
  induction n with
  | zero =>
    intro v hv
    rw [Function.iterate_zero, id_eq, Nat.add_zero, Nat.mod_eq_of_lt hv]
  | succ n ih =>
    intro v hv
    rw [Function.iterate_succ_apply, incrementCounter_beBytes32 p hp v hv,
      ih _ (Nat.mod_lt _ (by norm_num))]
    congr 2
    omega

theorem counter_split (c : List Nat) (hc : c.length = 16) (hb : ∀ x ∈ c, x < 256) :
    ∃ p v, p.length = 12 ∧ v < 2 ^ 32 ∧ c = p ++ beBytes32 v := by
  match c, hc with
  | [a0, a1, a2, a3, a4, a5, a6, a7, a8, a9, a10, a11, b0, b1, b2, b3], _ =>
    have h0 : b0 < 256 := hb b0 (by simp)
    have h1 : b1 < 256 := hb b1 (by simp)
    have h2 : b2 < 256 := hb b2 (by simp)
    have h3 : b3 < 256 := hb b3 (by simp)
    refine ⟨[a0, a1, a2, a3, a4, a5, a6, a7, a8, a9, a10, a11],
      ((b0 * 256 + b1) * 256 + b2) * 256 + b3, rfl, by omega, ?_⟩
    have e0 : (((b0 * 256 + b1) * 256 + b2) * 256 + b3) / 2 ^ 24 % 256 = b0 := by omega
    have e1 : (((b0 * 256 + b1) * 256 + b2) * 256 + b3) / 2 ^ 16 % 256 = b1 := by omega
    have e2 : (((b0 * 256 + b1) * 256 + b2) * 256 + b3) / 2 ^ 8 % 256 = b2 := by omega
    have e3 : (((b0 * 256 + b1) * 256 + b2) * 256 + b3) % 256 = b3 := by omega
    simp only [beBytes32, e0, e1, e2, e3, List.cons_append, List.nil_append]

theorem iterate_incrementCounter_add (c : List Nat) (hc : c.length = 16)
    (hb : ∀ x ∈ c, x < 256) (j m : Nat) (hm : m % 2 ^ 32 = 0) :
    incrementCounter^[j + m] c = incrementCounter^[j] c := by
  obtain ⟨p, v, hp, hv, rfl⟩ := counter_split c hc hb
  rw [iterate_incrementCounter_beBytes32 p hp _ v hv,
    iterate_incrementCounter_beBytes32 p hp _ v hv]
  congr 2
  omega

theorem genCounter_twelve (nonce : List Nat) (hn : nonce.length = 12) :
    genCounter nonce = nonce ++ [0, 0, 0, 1] := by
  match nonce, hn with
  | [a0, a1, a2, a3, a4, a5, a6, a7, a8, a9, a10, a11], _ => rfl

theorem first_counter_period (nonce : List Nat) (hn : nonce.length = 12) (j m : Nat)
    (hm : m % 2 ^ 32 = 0) :
    incrementCounter^[j + m] (incrementCounter (genCounter nonce)) =
      incrementCounter^[j] (incrementCounter (genCounter nonce)) := by
  have e : incrementCounter (genCounter nonce) = nonce ++ beBytes32 2 := by
    rw [genCounter_twelve nonce hn, incrementCounter_append nonce hn 0 0 0 1 (by omega)
      (by omega) (by omega)]
    norm_num
  rw [e, iterate_incrementCounter_beBytes32 nonce hn _ 2 (by norm_num),
    iterate_incrementCounter_beBytes32 nonce hn _ 2 (by norm_num)]
  congr 2
  omega

theorem genCounter_lt (nonce : List Nat) (hb : ∀ x ∈ nonce, x < 256) :
    ∀ x ∈ genCounter nonce, x < 256 := by
  intro x hx
  simp only [genCounter, copy, make, size] at hx
  rcases List.mem_or_eq_of_mem_set hx with h | h
  · rcases List.mem_append.mp h with h | h
    · exact hb x (List.mem_of_mem_take h)
    · have := List.mem_of_mem_drop h
      simp only [List.mem_replicate] at this
      omega
  · omega

/-! ## Multiplication in GF(2^128) -/

theorem gcmPoly_monic : gcmPoly.Monic := by
  unfold gcmPoly
  monicity!

theorem gcmPoly_degree : gcmPoly.degree = 128 := by
  unfold gcmPoly
  compute_degree!

theorem poly_add_self (p : Polynomial (ZMod 2)) : p + p = 0 := by
  exact CharTwo.add_self_eq_zero p

theorem bit_add (a b : uint128) (i : Nat) :
    (add a b).bit i = Bool.xor (a.bit i) (b.bit i) := by
  simp only [add, uint128.xor, uint128.bit]
  split <;> simp [Nat.testBit_xor]

theorem toPoly_add (a b : uint128) : toPoly (add a b) = toPoly a + toPoly b := by
  simp only [toPoly, ← Finset.sum_add_distrib]
  apply Finset.sum_congr rfl
  intro i _
  rw [bit_add]
  cases a.bit i <;> cases b.bit i <;> simp [poly_add_self]

theorem add_wf (a b : uint128) (ha : a.wf) (hb : b.wf) : (add a b).wf :=
  ⟨Nat.xor_lt_two_pow ha.1 hb.1, Nat.xor_lt_two_pow ha.2 hb.2⟩

theorem ofNat_wf (n : Nat) : (uint128.ofNat n).wf :=
  ⟨Nat.mod_lt _ (by norm_num), Nat.mod_lt _ (by norm_num)⟩

theorem bit_ofNat (n i : Nat) (hi : i < 128) :
    (uint128.ofNat n).bit i = n.testBit (127 - i) := by
  simp only [uint128.bit, uint128.ofNat]
  split
  · rename_i h
    rw [Nat.testBit_mod_two_pow, ← Nat.shiftRight_eq_div_pow, Nat.testBit_shiftRight]
    have e1 : 63 - i < 64 := by omega
    have e2 : 64 + (63 - i) = 127 - i := by omega
    simp [e1, e2]
  · rename_i h
    rw [Nat.testBit_mod_two_pow]
    have e1 : 127 - i < 64 := by omega
    simp [e1]

theorem testBit_toNat (u : uint128) (hu : u.wf) (k : Nat) :
    u.toNat.testBit k = if k < 64 then u.rhs.testBit k else u.lhs.testBit (k - 64) := by
  rw [uint128.toNat, Nat.mul_comm, Nat.testBit_mul_pow_two_add _ hu.2]

theorem bit_eq_testBit_toNat (u : uint128) (hu : u.wf) (i : Nat) (hi : i < 128) :
    u.bit i = u.toNat.testBit (127 - i) := by
  rw [testBit_toNat u hu, uint128.bit]
  by_cases h : i < 64
  · have e1 : ¬ 127 - i < 64 := by omega
    have e2 : 127 - i - 64 = 63 - i := by omega
    rw [if_pos h, if_neg e1, e2]
  · have e1 : 127 - i < 64 := by omega
    rw [if_neg h, if_pos e1]

theorem toNat_lt (u : uint128) (hu : u.wf) : u.toNat < 2 ^ 128 := by
  have h1 := hu.1
  have h2 := hu.2
  simp only [uint128.toNat]
  omega

theorem bit_rightShift_one (u : uint128) (hu : u.wf) (i : Nat) (hi : i < 128) :
    (u.rightShift 1).bit i = if i = 0 then false else u.bit (i - 1) := by
  rw [uint128.rightShift, bit_ofNat _ _ hi, Nat.testBit_shiftRight]
  by_cases h : i = 0
  · subst h
    simp only [if_true]
    exact Nat.testBit_lt_two_pow (toNat_lt u hu)
  · rw [if_neg h, bit_eq_testBit_toNat u hu (i - 1) (by omega)]
    congr 1
    omega

theorem and_one_iff (u : uint128) :
    u.and ⟨0, 1⟩ = ⟨0, 1⟩ ↔ u.rhs.testBit 0 = true := by
  simp only [uint128.and, uint128.mk.injEq, Nat.and_zero, true_and, Nat.and_one_is_mod,
    Nat.testBit_zero, decide_eq_true_eq]

theorem toPoly_rightShift_one (u : uint128) (hu : u.wf) :
    toPoly (u.rightShift 1) =
      Polynomial.X * toPoly u + (if u.bit 127 then Polynomial.X ^ 128 else 0) := by
  have h1 : toPoly (u.rightShift 1) =
      Finset.sum (Finset.range 127)
        (fun i => if u.bit i then (Polynomial.X : Polynomial (ZMod 2)) ^ (i + 1) else 0) := by
    rw [toPoly, Finset.sum_range_succ', bit_rightShift_one u hu 0 (by omega)]
    simp only [if_true, Bool.false_eq_true, if_false, add_zero]
    apply Finset.sum_congr rfl
    intro i hi
    have hi1 : i + 1 < 128 := by
      have := Finset.mem_range.mp hi
      omega
    rw [bit_rightShift_one u hu (i + 1) hi1]
    simp
  have h2 : Polynomial.X * toPoly u =
      Finset.sum (Finset.range 127)
        (fun i => if u.bit i then (Polynomial.X : Polynomial (ZMod 2)) ^ (i + 1) else 0) +
      (if u.bit 127 then Polynomial.X ^ 128 else 0) := by
    rw [toPoly, Finset.mul_sum, Finset.sum_range_succ]
    congr 1
    · apply Finset.sum_congr rfl
      intro i _
      split
      · rw [pow_succ, mul_comm]
      · rw [mul_zero]
    · split
      · rw [← pow_succ']
      · rw [mul_zero]
  rw [h1, h2, add_assoc, poly_add_self, add_zero]

theorem max128_bit : ∀ i, i < 128 →
    max128.bit i = decide (i = 0 ∨ i = 1 ∨ i = 2 ∨ i = 7) := by
  decide

theorem toPoly_max128 :
    toPoly max128 = Polynomial.X ^ 7 + Polynomial.X ^ 2 + Polynomial.X + 1 := by
  have h : toPoly max128 = Finset.sum (Finset.range 128)
      (fun i => if i = 0 ∨ i = 1 ∨ i = 2 ∨ i = 7 then
        (Polynomial.X : Polynomial (ZMod 2)) ^ i else 0) := by
    apply Finset.sum_congr rfl
    intro i hi
    rw [max128_bit i (Finset.mem_range.mp hi)]
    simp
  rw [h]
  simp [Finset.sum_range_succ]
  ring

theorem rightShift_bit_iff (u : uint128) :
    u.and ⟨0, 1⟩ = ⟨0, 1⟩ ↔ u.bit 127 = true := by
  rw [and_one_iff]
  simp [uint128.bit]

theorem rightShift_wf (u : uint128) : (rightShift u).wf := by
  unfold rightShift
  split
  · exact add_wf _ _ (ofNat_wf _) (by decide)
  · exact ofNat_wf _

theorem toPoly_rightShift (u : uint128) (hu : u.wf) :
    toPoly (rightShift u) =
      Polynomial.X * toPoly u + (if u.bit 127 then gcmPoly else 0) := by
  unfold rightShift
  by_cases h : u.bit 127 = true
  · rw [if_pos ((rightShift_bit_iff u).2 h)]
    simp only []
    rw [toPoly_add, toPoly_rightShift_one u hu, toPoly_max128, if_pos h, if_pos h, gcmPoly]
    ring
  · rw [if_neg (fun hc => h ((rightShift_bit_iff u).1 hc)), toPoly_rightShift_one u hu,
      if_neg h, if_neg h]

theorem mk_toPoly_rightShift (u : uint128) (hu : u.wf) :
    AdjoinRoot.mk gcmPoly (toPoly (rightShift u)) =
      AdjoinRoot.mk gcmPoly Polynomial.X * AdjoinRoot.mk gcmPoly (toPoly u) := by
  rw [toPoly_rightShift u hu, map_add, map_mul]
  split
  · rw [AdjoinRoot.mk_self, add_zero]
  · rw [map_zero, add_zero]

theorem mulLoop_test_iff (a : uint128) (b : Nat) :
    (a.rightShift b).and ⟨0, 1⟩ = ⟨0, 1⟩ ↔ a.toNat.testBit b = true := by
  rw [and_one_iff]
  show ((a.toNat >>> b) % 2 ^ 64).testBit 0 = true ↔ _
  rw [Nat.testBit_mod_two_pow, Nat.testBit_shiftRight]
  simp

theorem loop_sum_succ {R : Type} [CommRing R] (x : R) (t : Nat → Bool) (n : Nat) :
    Finset.sum (Finset.range (n + 1)) (fun k => if t (n + 1 - 1 - k) then x ^ k else 0) =
      x * Finset.sum (Finset.range n) (fun k => if t (n - 1 - k) then x ^ k else 0) +
        (if t n then 1 else 0) := by
  rw [Finset.sum_range_succ', Finset.mul_sum]
  have e0 : n + 1 - 1 - 0 = n := by omega
  rw [e0, pow_zero]
  congr 1
  apply Finset.sum_congr rfl
  intro k _
  have e1 : n + 1 - 1 - (k + 1) = n - 1 - k := by omega
  rw [e1]
  split
  · rw [pow_succ, mul_comm]
  · rw [mul_zero]

theorem mulLoop_spec (a : uint128) : ∀ (n : Nat) (r s : uint128), r.wf → s.wf →
    (mulLoop a n r s).wf ∧
    AdjoinRoot.mk gcmPoly (toPoly (mulLoop a n r s)) =
      AdjoinRoot.mk gcmPoly (toPoly s) + AdjoinRoot.mk gcmPoly (toPoly r) *
        Finset.sum (Finset.range n) (fun k =>
          if a.toNat.testBit (n - 1 - k) then AdjoinRoot.mk gcmPoly Polynomial.X ^ k else 0) := by
  intro n
  induction n with
  | zero =>
    intro r s _ hs
    simp [mulLoop, hs]
  | succ n ih =>
    intro r s hr hs
    simp only [mulLoop]
    rw [loop_sum_succ (AdjoinRoot.mk gcmPoly Polynomial.X) (fun k => a.toNat.testBit k) n]
    by_cases h : a.toNat.testBit n = true
    · rw [if_pos ((mulLoop_test_iff a n).2 h)]
      obtain ⟨w, e⟩ := ih (rightShift r) (add s r) (rightShift_wf r) (add_wf s r hs hr)
      refine ⟨w, ?_⟩
      rw [e, mk_toPoly_rightShift r hr, toPoly_add, map_add, if_pos h]
      ring
    · rw [if_neg (fun hc => h ((mulLoop_test_iff a n).1 hc))]
      obtain ⟨w, e⟩ := ih (rightShift r) s (rightShift_wf r) hs
      refine ⟨w, ?_⟩
      rw [e, mk_toPoly_rightShift r hr, if_neg h]
      ring

theorem toPoly_zero : toPoly ⟨0, 0⟩ = 0 := by
  simp [toPoly, uint128.bit]

theorem toPoly_degree_lt (u : uint128) : (toPoly u).degree < gcmPoly.degree := by
  rw [gcmPoly_degree]
  have h : toPoly u ∈ Polynomial.degreeLT (ZMod 2) 128 := by
    unfold toPoly
    apply Submodule.sum_mem
    intro i hi
    rw [Polynomial.mem_degreeLT]
    split
    · refine lt_of_le_of_lt (Polynomial.degree_X_pow_le i) ?_
      exact_mod_cast Finset.mem_range.mp hi
    · rw [Polynomial.degree_zero]
      exact WithBot.bot_lt_coe _
  exact Polynomial.mem_degreeLT.mp h

theorem mul_spec (a b : uint128) (ha : a.wf) (hb : b.wf) :
    (mul a b).wf ∧
      toPoly (mul a b) = Polynomial.modByMonic (toPoly a * toPoly b) gcmPoly := by
  obtain ⟨w, e⟩ := mulLoop_spec a 128 b ⟨0, 0⟩ hb (by decide)
  refine ⟨w, ?_⟩
  have e1 : AdjoinRoot.mk gcmPoly (toPoly a) =
      Finset.sum (Finset.range 128) (fun k =>
        if a.toNat.testBit (128 - 1 - k) then AdjoinRoot.mk gcmPoly Polynomial.X ^ k else 0) := by
    rw [toPoly, map_sum]
    apply Finset.sum_congr rfl
    intro k hk
    rw [bit_eq_testBit_toNat a ha k (Finset.mem_range.mp hk)]
    split
    · rw [map_pow]
    · rw [map_zero]
  have e2 : AdjoinRoot.mk gcmPoly (toPoly (mul a b)) =
      AdjoinRoot.mk gcmPoly (toPoly a * toPoly b) := by
    rw [mul, e, toPoly_zero, map_zero, zero_add, map_mul, e1, mul_comm]
  have e3 : gcmPoly ∣ toPoly (mul a b) - toPoly a * toPoly b := AdjoinRoot.mk_eq_mk.mp e2
  rw [← Polynomial.modByMonic_eq_of_dvd_sub gcmPoly_monic e3]
  exact ((Polynomial.modByMonic_eq_self_iff gcmPoly_monic).2 (toPoly_degree_lt _)).symm

theorem coeff_toPoly (u : uint128) (j : Nat) (hj : j < 128) :
    (toPoly u).coeff j = if u.bit j then 1 else 0 := by
  rw [toPoly, Polynomial.finset_sum_coeff]
  have h : ∀ i ∈ Finset.range 128,
      (if u.bit i then (Polynomial.X : Polynomial (ZMod 2)) ^ i else 0).coeff j =
        if j = i then (if u.bit i then 1 else 0) else 0 := by
    intro i _
    split
    · rw [Polynomial.coeff_X_pow]
    · rw [Polynomial.coeff_zero]; split <;> rfl
  rw [Finset.sum_congr rfl h, Finset.sum_ite_eq, if_pos (Finset.mem_range.mpr hj)]

theorem bit_eq_of_toPoly_eq (a b : uint128) (h : toPoly a = toPoly b) (j : Nat)
    (hj : j < 128) : a.bit j = b.bit j := by
  have e := congrArg (fun p => Polynomial.coeff p j) h
  simp only [coeff_toPoly _ j hj] at e
  cases ha : a.bit j <;> cases hb : b.bit j <;> simp [ha, hb] at e ⊢

theorem word_eq_of_testBit (x y : Nat) (hx : x < 2 ^ 64) (hy : y < 2 ^ 64)
    (h : ∀ k, k < 64 → x.testBit k = y.testBit k) : x = y := by
  apply Nat.eq_of_testBit_eq
  intro k
  by_cases hk : k < 64
  · exact h k hk
  · have hp : 2 ^ 64 ≤ 2 ^ k := Nat.pow_le_pow_right (by norm_num) (by omega)
    rw [Nat.testBit_lt_two_pow (lt_of_lt_of_le hx hp),
      Nat.testBit_lt_two_pow (lt_of_lt_of_le hy hp)]

theorem toPoly_injective (a b : uint128) (ha : a.wf) (hb : b.wf) (h : toPoly a = toPoly b) :
    a = b := by
  have hl : a.lhs = b.lhs := by
    apply word_eq_of_testBit _ _ ha.1 hb.1
    intro k hk
    have e := bit_eq_of_toPoly_eq a b h (63 - k) (by omega)
    have e1 : 63 - k < 64 := by omega
    have e2 : 63 - (63 - k) = k := by omega
    simpa only [uint128.bit, if_pos e1, e2] using e
  have hr : a.rhs = b.rhs := by
    apply word_eq_of_testBit _ _ ha.2 hb.2
    intro k hk
    have e := bit_eq_of_toPoly_eq a b h (127 - k) (by omega)
    have e1 : ¬ 127 - k < 64 := by omega
    have e2 : 127 - (127 - k) = k := by omega
    simpa only [uint128.bit, if_neg e1, e2] using e
  cases a
  cases b
  simp only [uint128.mk.injEq]
  exact ⟨hl, hr⟩

theorem one_bit : ∀ i, i < 128 →
    (⟨0x8000000000000000, 0⟩ : uint128).bit i = decide (i = 0) := by
  decide

theorem toPoly_one : toPoly ⟨0x8000000000000000, 0⟩ = 1 := by
  have h : toPoly ⟨0x8000000000000000, 0⟩ = Finset.sum (Finset.range 128)
      (fun i => if i = 0 then (Polynomial.X : Polynomial (ZMod 2)) ^ i else 0) := by
    apply Finset.sum_congr rfl
    intro i hi
    rw [one_bit i (Finset.mem_range.mp hi)]
    simp
  rw [h, Finset.sum_ite_eq' (Finset.range 128) 0, if_pos (Finset.mem_range.mpr (by norm_num)),
    pow_zero]

/-! ## Further lemmas on the field, the counter and standard counter mode -/

theorem mk_toPoly_mul (a b : uint128) (ha : a.wf) (hb : b.wf) :
    AdjoinRoot.mk gcmPoly (toPoly (mul a b)) =
      AdjoinRoot.mk gcmPoly (toPoly a) * AdjoinRoot.mk gcmPoly (toPoly b) := by
  rw [(mul_spec a b ha hb).2, ← map_mul, AdjoinRoot.mk_eq_mk]
  refine ⟨-(Polynomial.divByMonic (toPoly a * toPoly b) gcmPoly), ?_⟩
  have h := Polynomial.modByMonic_add_div (toPoly a * toPoly b) gcmPoly_monic
  linear_combination h

theorem eq_of_mk_toPoly_eq (u v : uint128) (hu : u.wf) (hv : v.wf)
    (h : AdjoinRoot.mk gcmPoly (toPoly u) = AdjoinRoot.mk gcmPoly (toPoly v)) : u = v := by
  apply toPoly_injective u v hu hv
  have h1 := Polynomial.modByMonic_eq_of_dvd_sub gcmPoly_monic (AdjoinRoot.mk_eq_mk.mp h)
  rwa [(Polynomial.modByMonic_eq_self_iff gcmPoly_monic).2 (toPoly_degree_lt u),
    (Polynomial.modByMonic_eq_self_iff gcmPoly_monic).2 (toPoly_degree_lt v)] at h1

theorem mul_wf (a b : uint128) (ha : a.wf) (hb : b.wf) : (mul a b).wf :=
  (mul_spec a b ha hb).1

theorem mulLoop_zero_left : ∀ (n : Nat) (r s : uint128), mulLoop ⟨0, 0⟩ n r s = s := by
  intro n
  induction n with
  | zero => intro r s; rfl
  | succ n ih =>
    intro r s
    have h : ¬ ((⟨0, 0⟩ : uint128).rightShift n).and ⟨0, 1⟩ = ⟨0, 1⟩ := by
      rw [mulLoop_test_iff]
      simp [uint128.toNat]
    simp only [mulLoop, if_neg h, ih]

theorem rightShift_zero : rightShift ⟨0, 0⟩ = ⟨0, 0⟩ := by decide

theorem mulLoop_zero_right (a : uint128) : ∀ n : Nat, mulLoop a n ⟨0, 0⟩ ⟨0, 0⟩ = ⟨0, 0⟩ := by
  intro n
  induction n with
  | zero => rfl
  | succ n ih =>
    have e : add ⟨0, 0⟩ ⟨0, 0⟩ = (⟨0, 0⟩ : uint128) := by decide
    simp only [mulLoop, rightShift_zero, e, ite_self, ih]

theorem counter_split_last (c : List Nat) (hc : c.length = 16)
    (hb : ∀ x ∈ c.drop 12, x < 256) :
    beValue (c.drop 12) < 2 ^ 32 ∧ c = c.take 12 ++ beBytes32 (beValue (c.drop 12)) := by
  match c, hc with
  | [a0, a1, a2, a3, a4, a5, a6, a7, a8, a9, a10, a11, b0, b1, b2, b3], _ =>
    have h0 : b0 < 256 := hb b0 (by simp)
    have h1 : b1 < 256 := hb b1 (by simp)
    have h2 : b2 < 256 := hb b2 (by simp)
    have h3 : b3 < 256 := hb b3 (by simp)
    have ev : beValue (List.drop 12
        [a0, a1, a2, a3, a4, a5, a6, a7, a8, a9, a10, a11, b0, b1, b2, b3]) =
        ((b0 * 256 + b1) * 256 + b2) * 256 + b3 := by
      simp [beValue]
    rw [ev]
    refine ⟨by omega, ?_⟩
    have e0 : (((b0 * 256 + b1) * 256 + b2) * 256 + b3) / 2 ^ 24 % 256 = b0 := by omega
    have e1 : (((b0 * 256 + b1) * 256 + b2) * 256 + b3) / 2 ^ 16 % 256 = b1 := by omega
    have e2 : (((b0 * 256 + b1) * 256 + b2) * 256 + b3) / 2 ^ 8 % 256 = b2 := by omega
    have e3 : (((b0 * 256 + b1) * 256 + b2) * 256 + b3) % 256 = b3 := by omega
    simp only [beBytes32, e0, e1, e2, e3, List.take, List.cons_append, List.nil_append]

theorem iterate_incrementCounter_eq (c : List Nat) (hc : c.length = 16)
    (hb : ∀ x ∈ c.drop 12, x < 256) (n : Nat) :
    incrementCounter^[n] c =
      c.take 12 ++ beBytes32 ((beValue (c.drop 12) + n) % 2 ^ 32) := by
  obtain ⟨hv, e⟩ := counter_split_last c hc hb
  have hp : (c.take 12).length = 12 := by simp [hc]
  have h := iterate_incrementCounter_beBytes32 (c.take 12) hp n (beValue (c.drop 12)) hv
  rw [← e] at h
  exact h

theorem encWitchCounter_nonce (E : List Nat → List Nat → List Nat)
    (plaintext key nonce nonce2 c : List Nat) :
    encWitchCounter E plaintext key nonce c = encWitchCounter E plaintext key nonce2 c :=
  rfl

theorem genCounter_pad (nonce : List Nat) (hn : nonce.length < 12) :
    genCounter nonce = genCounter (nonce ++ List.replicate (12 - nonce.length) 0) := by
  have h : copy (make size) nonce =
      copy (make size) (nonce ++ List.replicate (12 - nonce.length) 0) := by
    have e1 : nonce.take 16 = nonce := List.take_of_length_le (by omega)
    have e2 : (nonce ++ List.replicate (12 - nonce.length) 0).take 16 =
        nonce ++ List.replicate (12 - nonce.length) 0 :=
      List.take_of_length_le (by simp; omega)
    have e3 : 16 - (nonce.length + (12 - nonce.length)) = 4 := by omega
    have e4 : 16 - nonce.length = (12 - nonce.length) + 4 := by omega
    simp only [copy, make, size, List.length_replicate, List.drop_replicate, e1, e2,
      List.length_append, e3, List.append_assoc]
    rw [e4, List.replicate_add]
  simp only [genCounter, h]

theorem foldl_be (q : List Nat) : ∀ a : Nat,
    q.foldl (fun acc b => acc * 256 + b) a =
      a * 256 ^ q.length + q.foldl (fun acc b => acc * 256 + b) 0 := by
  induction q with
  | nil => intro a; simp
  | cons b q ih =>
    intro a
    simp only [List.foldl_cons, List.length_cons]
    rw [ih (a * 256 + b), ih (0 * 256 + b)]
    ring

theorem beValue_append (p q : List Nat) :
    beValue (p ++ q) = beValue p * 256 ^ q.length + beValue q := by
  simp only [beValue, List.foldl_append]
  exact foldl_be q _

theorem beValue_lt (l : List Nat) (hb : ∀ x ∈ l, x < 256) : beValue l < 256 ^ l.length := by
  induction l using List.reverseRecOn with
  | nil => simp [beValue]
  | append_singleton l b ih =>
    have h1 := ih (fun x hx => hb x (List.mem_append_left _ hx))
    have h2 : b < 256 := hb b (by simp)
    rw [beValue_append]
    simp only [List.length_append, List.length_singleton, pow_succ, beValue, List.foldl_cons,
      List.foldl_nil, pow_one, pow_zero]
    have h3 : List.foldl (fun acc b => acc * 256 + b) 0 l + 1 ≤ 256 ^ l.length := h1
    nlinarith

theorem beBytes_succ (n v : Nat) : beBytes (n + 1) v = beBytes n (v / 256) ++ [v % 256] := by
  simp only [beBytes, List.range_succ, List.map_append, List.map_cons, List.map_nil]
  congr 1
  · apply List.map_congr_left
    intro j hj
    have hj1 : j < n := List.mem_range.mp hj
    have e : n + 1 - 1 - j = (n - 1 - j) + 1 := by omega
    rw [e, pow_succ, Nat.mul_comm, ← Nat.div_div_eq_div_mul]
  · simp

theorem beBytes_beValue (l : List Nat) (hb : ∀ x ∈ l, x < 256) :
    beBytes l.length (beValue l) = l := by
  induction l using List.reverseRecOn with
  | nil => rfl
  | append_singleton l b ih =>
    have h1 := ih (fun x hx => hb x (List.mem_append_left _ hx))
    have h2 : b < 256 := hb b (by simp)
    have e : beValue (l ++ [b]) = beValue l * 256 + b := by
      rw [beValue_append]
      simp [beValue]
    rw [List.length_append, List.length_singleton, beBytes_succ, e]
    have e1 : (beValue l * 256 + b) / 256 = beValue l := by omega
    have e2 : (beValue l * 256 + b) % 256 = b := by omega
    rw [e1, e2, h1]

theorem beValue_beBytes32 (w : Nat) (hw : w < 2 ^ 32) : beValue (beBytes32 w) = w := by
  simp only [beValue, beBytes32, List.foldl_cons, List.foldl_nil]
  omega

theorem length_beBytes32 (w : Nat) : (beBytes32 w).length = 4 := rfl

theorem pow_256_4 : (256 : Nat) ^ 4 = 2 ^ 32 := by norm_num

theorem beBytes32_lt (w : Nat) : ∀ x ∈ beBytes32 w, x < 256 := by
  intro x hx
  simp only [beBytes32, List.mem_cons, List.mem_singleton, List.not_mem_nil, or_false] at hx
  rcases hx with h | h | h | h <;> omega

theorem ctrBlock_eq_iterate (c : List Nat) (hc : c.length = 16) (hb : ∀ x ∈ c, x < 256)
    (j : Nat) (hj : beValue (c.drop 12) + j < 2 ^ 32) :
    ctrBlock c j = incrementCounter^[j] c := by
  obtain ⟨hv, e⟩ := counter_split_last c hc (fun x hx => hb x (List.mem_of_mem_drop hx))
  have hp : (c.take 12).length = 12 := by simp [hc]
  have hpb : ∀ x ∈ c.take 12, x < 256 := fun x hx => hb x (List.mem_of_mem_take hx)
  have hplt := beValue_lt (c.take 12) hpb
  rw [hp] at hplt
  have hit := iterate_incrementCounter_eq c hc
    (fun x hx => hb x (List.mem_of_mem_drop hx)) j
  rw [Nat.mod_eq_of_lt hj] at hit
  have hlen : (incrementCounter^[j] c).length = 16 := length_iterate_incrementCounter c hc j
  have hval : ∀ x ∈ incrementCounter^[j] c, x < 256 := by
    intro x hx
    rw [hit] at hx
    rcases List.mem_append.mp hx with h | h
    · exact hpb x h
    · exact beBytes32_lt _ x h
  have e1 : beValue c = beValue (c.take 12) * 2 ^ 32 + beValue (c.drop 12) := by
    conv_lhs => rw [e]
    rw [beValue_append, beValue_beBytes32 _ hv, length_beBytes32, pow_256_4]
  have e2 : beValue (incrementCounter^[j] c) =
      beValue (c.take 12) * 2 ^ 32 + (beValue (c.drop 12) + j) := by
    rw [hit, beValue_append, beValue_beBytes32 _ hj, length_beBytes32, pow_256_4]
  have e3 : beValue c + j = beValue (incrementCounter^[j] c) := by rw [e1, e2]; ring
  have e4 : beValue c + j < 2 ^ 128 := by
    rw [e1, Nat.add_assoc]
    have h1 : (beValue (c.take 12) + 1) * 2 ^ 32 ≤ 256 ^ 12 * 2 ^ 32 :=
      Nat.mul_le_mul_right _ hplt
    have h2 : (256 : Nat) ^ 12 * 2 ^ 32 = 2 ^ 128 := by norm_num
    have h3 : beValue (c.take 12) * 2 ^ 32 + (beValue (c.drop 12) + j) <
        (beValue (c.take 12) + 1) * 2 ^ 32 := by
      rw [Nat.add_mul, Nat.one_mul]
      exact Nat.add_lt_add_left hj _
    rw [← h2]
    exact lt_of_lt_of_le h3 h1
  rw [ctrBlock, Nat.mod_eq_of_lt e4, e3]
  have := beBytes_beValue _ hval
  rw [hlen] at this
  exact this

theorem get_flatten_blocks (f : Nat → List Nat) (m : Nat)
    (hf : ∀ j, j < m → (f j).length = 16) :
    (((List.range m).map f).flatten).length = 16 * m ∧
    ∀ k : Nat, k < 16 * m →
      (((List.range m).map f).flatten)[k]?.getD 0 = (f (k / 16))[k % 16]?.getD 0 := by
  induction m with
  | zero => exact ⟨rfl, fun k hk => by omega⟩
  | succ m ih =>
    obtain ⟨h1, h2⟩ := ih (fun j hj => hf j (by omega))
    have e : ((List.range (m + 1)).map f).flatten = ((List.range m).map f).flatten ++ f m := by
      simp [List.range_succ]
    rw [e]
    refine ⟨by rw [List.length_append, h1, hf m (by omega)]; omega, ?_⟩
    intro k hk
    by_cases hk1 : k < 16 * m
    · rw [List.getElem?_append_left (by omega), h2 k hk1]
    · rw [List.getElem?_append_right (by omega), h1]
      have a1 : k / 16 = m := by omega
      have a2 : k - 16 * m = k % 16 := by omega
      rw [a1, a2]

theorem get_zipWith_xor (a b : List Nat) (k : Nat) (ha : k < a.length) (hb : k < b.length) :
    (List.zipWith (· ^^^ ·) a b)[k]?.getD 0 = a[k]?.getD 0 ^^^ b[k]?.getD 0 := by
  simp only [List.getElem?_zipWith]
  simp [List.getElem?_eq_getElem ha, List.getElem?_eq_getElem hb]

theorem length_beBytes (n v : Nat) : (beBytes n v).length = n := by
  simp [beBytes]

theorem encWitchCounter_eq_stdCTR (E : List Nat → List Nat → List Nat) (hE : BlockCipher E)
    (data key nonce c : List Nat)
    (hk : key.length = 16 ∨ key.length = 24 ∨ key.length = 32) (hc : c.length = 16)
    (hb : ∀ x ∈ c, x < 256) (hw : beValue (c.drop 12) + (data.length + 15) / 16 ≤ 2 ^ 32) :
    encWitchCounter E data key nonce c = some (some (stdCTR E key c data), none) := by
  obtain ⟨out, h1, h2, h3⟩ := encWitchCounter_spec E hE data key nonce c hk hc
  rw [h1]
  have hks := get_flatten_blocks (fun j => E key (ctrBlock c j)) ((data.length + 15) / 16)
    (fun j _ => hE key _ hk (length_beBytes 16 _))
  obtain ⟨hkl, hkg⟩ := hks
  have hlen : (stdCTR E key c data).length = data.length := by
    simp only [stdCTR, List.length_zipWith, List.length_take, hkl]
    omega
  have e : out = stdCTR E key c data := by
    apply ext_get (by rw [h2, hlen])
    intro k hk1
    have hk2 : k < data.length := by omega
    have hk3 : k < 16 * ((data.length + 15) / 16) := by omega
    rw [h3 k hk2, stdCTR, get_zipWith_xor _ _ k hk2
      (by simp only [List.length_take, hkl]; omega), List.getElem?_take, if_pos hk2, hkg k hk3]
    simp only []
    rw [ctrBlock_eq_iterate c hc hb (k / 16) (by omega)]
  rw [e]

/-! ## The claims -/

set_option maxRecDepth 100000

theorem xorCipher_ok : BlockCipher xorCipher := by
  intro key b hk hb
  simp only [xorCipher, List.length_zipWith, List.length_take, hb]
  omega

/-- C1: for a key of 16, 24 or 32 bytes and a 12-byte nonce, `Seal` returns `ct ‖ tag`,
where `ct` is the result of `encWitchCounter` started at `incrementCounter (genCounter
nonce)`, and `tag` is the byte-wise exclusive or of `E key (genCounter nonce)` with the 16
bytes of `ghash ct additionalData (E key zeros)`. -/
theorem Seal_ciphertext_tag (E : List Nat → List Nat → List Nat) (hE : BlockCipher E)
    (plaintext key nonce additionalData : List Nat)
    (hk : key.length = 16 ∨ key.length = 24 ∨ key.length = 32) (hn : nonce.length = 12) :
    ∃ ct g,
      encWitchCounter E plaintext key nonce (incrementCounter (genCounter nonce)) =
        some (some ct, none) ∧
      ghash ct additionalData (E key (List.replicate 16 0)) = some g ∧
      g.length = 16 ∧ (E key (genCounter nonce)).length = 16 ∧
      Seal E plaintext key nonce additionalData =
        some (some (ct ++ List.zipWith (· ^^^ ·) (E key (genCounter nonce)) g), none) := by
  have _ := hn
  obtain ⟨ct, g, h1, _, h3, h4, h5⟩ := Seal_eq E hE plaintext key nonce additionalData hk
  exact ⟨ct, g, h1, h3, h4, hE key _ hk (length_genCounter nonce), h5⟩

theorem Seal_ciphertext_tag_witness :
    BlockCipher xorCipher ∧
    ([0, 1, 2, 3, 4, 5, 6, 7, 8, 9, 10, 11, 12, 13, 14, 15] : List Nat).length = 16 ∧
    ([9, 8, 7, 6, 5, 4, 3, 2, 1, 0, 1, 0] : List Nat).length = 12 ∧
    ∃ ct g,
      encWitchCounter xorCipher [1, 2, 3] [0, 1, 2, 3, 4, 5, 6, 7, 8, 9, 10, 11, 12, 13, 14, 15]
        [9, 8, 7, 6, 5, 4, 3, 2, 1, 0, 1, 0]
        (incrementCounter (genCounter [9, 8, 7, 6, 5, 4, 3, 2, 1, 0, 1, 0])) =
        some (some ct, none) ∧
      ghash ct [5] (xorCipher [0, 1, 2, 3, 4, 5, 6, 7, 8, 9, 10, 11, 12, 13, 14, 15]
        (List.replicate 16 0)) = some g ∧
      g.length = 16 ∧
      (xorCipher [0, 1, 2, 3, 4, 5, 6, 7, 8, 9, 10, 11, 12, 13, 14, 15]
        (genCounter [9, 8, 7, 6, 5, 4, 3, 2, 1, 0, 1, 0])).length = 16 ∧
      Seal xorCipher [1, 2, 3] [0, 1, 2, 3, 4, 5, 6, 7, 8, 9, 10, 11, 12, 13, 14, 15]
        [9, 8, 7, 6, 5, 4, 3, 2, 1, 0, 1, 0] [5] =
        some (some (ct ++ List.zipWith (· ^^^ ·)
          (xorCipher [0, 1, 2, 3, 4, 5, 6, 7, 8, 9, 10, 11, 12, 13, 14, 15]
            (genCounter [9, 8, 7, 6, 5, 4, 3, 2, 1, 0, 1, 0])) g), none) :=
  ⟨xorCipher_ok, by decide, by decide,
    Seal_ciphertext_tag xorCipher xorCipher_ok [1, 2, 3]
      [0, 1, 2, 3, 4, 5, 6, 7, 8, 9, 10, 11, 12, 13, 14, 15]
      [9, 8, 7, 6, 5, 4, 3, 2, 1, 0, 1, 0] [5] (Or.inl (by decide)) (by decide)⟩

/-- C2: for a key of 16, 24 or 32 bytes and every nonce, plaintext and associated data,
`Seal` returns a byte sequence of length `len(plaintext) + 16` (and a nil error). -/
theorem Seal_length (E : List Nat → List Nat → List Nat) (hE : BlockCipher E)
    (plaintext key nonce additionalData : List Nat)
    (hk : key.length = 16 ∨ key.length = 24 ∨ key.length = 32) :
    ∃ out, Seal E plaintext key nonce additionalData = some (some out, none) ∧
      out.length = plaintext.length + 16 := by
  obtain ⟨ct, g, _, h2, _, h4, h5⟩ := Seal_eq E hE plaintext key nonce additionalData hk
  refine ⟨_, h5, ?_⟩
  simp only [List.length_append, List.length_zipWith, h2, h4,
    hE key _ hk (length_genCounter nonce), Nat.min_self]

theorem Seal_length_witness :
    BlockCipher xorCipher ∧
    ((List.replicate 24 7).length = 16 ∨ (List.replicate 24 7).length = 24 ∨
      (List.replicate 24 7).length = 32) ∧
    ∃ out, Seal xorCipher [1, 2, 3, 4, 5] (List.replicate 24 7) [1, 2] [] =
        some (some out, none) ∧
      out.length = ([1, 2, 3, 4, 5] : List Nat).length + 16 :=
  ⟨xorCipher_ok, by decide,
    Seal_length xorCipher xorCipher_ok [1, 2, 3, 4, 5] (List.replicate 24 7) [1, 2] []
      (by decide)⟩

/-- C3: for a key whose length is not 16, 24 or 32, both `Seal` and `encWitchCounter`
return a nil byte slice together with the error `KeySizeError(len(key))`, whatever the
plaintext, nonce, associated data and counter. -/
theorem Seal_invalid_key (E : List Nat → List Nat → List Nat)
    (plaintext key nonce additionalData c : List Nat)
    (hk : key.length ≠ 16 ∧ key.length ≠ 24 ∧ key.length ≠ 32) :
    Seal E plaintext key nonce additionalData =
        some (none, some (GoError.KeySizeError key.length)) ∧
      encWitchCounter E plaintext key nonce c =
        some (none, some (GoError.KeySizeError key.length)) := by
  have hk1 : ¬ (key.length = 16 ∨ key.length = 24 ∨ key.length = 32) := by omega
  refine ⟨?_, encWitchCounter_badKey E plaintext key nonce c hk1⟩
  simp only [Seal, encWitchCounter_badKey E plaintext key nonce _ hk1]

theorem Seal_invalid_key_witness :
    (([1, 2, 3] : List Nat).length ≠ 16 ∧ ([1, 2, 3] : List Nat).length ≠ 24 ∧
      ([1, 2, 3] : List Nat).length ≠ 32) ∧
    Seal xorCipher [4, 5] [1, 2, 3] (List.replicate 12 0) [6] =
        some (none, some (GoError.KeySizeError ([1, 2, 3] : List Nat).length)) ∧
      encWitchCounter xorCipher [4, 5] [1, 2, 3] (List.replicate 12 0) (List.replicate 16 0) =
        some (none, some (GoError.KeySizeError ([1, 2, 3] : List Nat).length)) :=
  ⟨by decide, Seal_invalid_key xorCipher [4, 5] [1, 2, 3] (List.replicate 12 0) [6]
    (List.replicate 16 0) (by decide)⟩

/-- C4, counterexample: with a 16-byte key, `Seal` accepts an 11-byte nonce and returns
a sealed output with a nil error. -/
theorem Seal_accepts_short_nonce :
    Seal xorCipher [1, 2, 3] [0, 1, 2, 3, 4, 5, 6, 7, 8, 9, 10, 11, 12, 13, 14, 15]
      [9, 8, 7, 6, 5, 4, 3, 2, 1, 0, 1] [5] =
    some (some [8, 11, 6, 193, 177, 181, 201, 46, 35, 176, 215, 20, 135, 9, 78, 253, 112,
      221, 189], none) := by
  decide

/-- C4, amended: `Seal` does not look at the length of the nonce.  For a nonce whose
length is not 12, `Seal` returns a sealed output with a nil error when the key has 16,
24 or 32 bytes, and the error `KeySizeError` otherwise. -/
theorem Seal_nonce_unchecked (E : List Nat → List Nat → List Nat) (hE : BlockCipher E)
    (plaintext key nonce additionalData : List Nat) (hn : nonce.length ≠ 12) :
    ((key.length = 16 ∨ key.length = 24 ∨ key.length = 32) →
      ∃ out, Seal E plaintext key nonce additionalData = some (some out, none)) ∧
    (¬ (key.length = 16 ∨ key.length = 24 ∨ key.length = 32) →
      Seal E plaintext key nonce additionalData =
        some (none, some (GoError.KeySizeError key.length))) := by
  have _ := hn
  constructor
  · intro hk
    obtain ⟨ct, g, _, _, _, _, h5⟩ := Seal_eq E hE plaintext key nonce additionalData hk
    exact ⟨_, h5⟩
  · intro hk
    simp only [Seal, encWitchCounter_badKey E plaintext key nonce _ hk]

theorem Seal_nonce_unchecked_witness :
    BlockCipher xorCipher ∧ ([1, 2, 3, 4, 5, 6, 7, 8, 9, 10, 11, 12, 13] : List Nat).length ≠ 12 ∧
    ((((List.replicate 32 1).length = 16 ∨ (List.replicate 32 1).length = 24 ∨
        (List.replicate 32 1).length = 32) →
      ∃ out, Seal xorCipher [1] (List.replicate 32 1)
        [1, 2, 3, 4, 5, 6, 7, 8, 9, 10, 11, 12, 13] [] = some (some out, none)) ∧
    (¬ ((List.replicate 32 1).length = 16 ∨ (List.replicate 32 1).length = 24 ∨
        (List.replicate 32 1).length = 32) →
      Seal xorCipher [1] (List.replicate 32 1) [1, 2, 3, 4, 5, 6, 7, 8, 9, 10, 11, 12, 13] [] =
        some (none, some (GoError.KeySizeError (List.replicate 32 1).length)))) :=
  ⟨xorCipher_ok, by decide,
    Seal_nonce_unchecked xorCipher xorCipher_ok [1] (List.replicate 32 1)
      [1, 2, 3, 4, 5, 6, 7, 8, 9, 10, 11, 12, 13] [] (by decide)⟩

/-- C5, counterexample: for a plaintext of `16 * (2 ^ 32 - 2) + 1` bytes, a 16-byte key and
a 12-byte nonce, `Seal` returns with a nil error. -/
theorem Seal_no_length_limit :
    Option.map Prod.snd (Seal xorCipher (List.replicate (16 * (2 ^ 32 - 2) + 1) 0)
      (List.replicate 16 0) (List.replicate 12 0) []) = some none := by
  obtain ⟨ct, g, _, _, _, _, h5⟩ := Seal_eq xorCipher xorCipher_ok
    (List.replicate (16 * (2 ^ 32 - 2) + 1) 0) (List.replicate 16 0) (List.replicate 12 0) []
    (Or.inl (List.length_replicate 16 0))
  rw [h5]
  rfl

/-- C5, amended: `Seal` has no limit on the plaintext length.  For a key of 16, 24 or 32
bytes, a 12-byte nonce and a plaintext of more than `16 * (2 ^ 32 - 2)` bytes, `Seal`
returns a sealed output of `len(plaintext) + 16` bytes with a nil error; the 32-bit
counter field wraps, so the bytes at positions `k` and `k + 16 * 2 ^ 32` are encrypted
with the same keystream byte. -/
theorem Seal_long_plaintext (E : List Nat → List Nat → List Nat) (hE : BlockCipher E)
    (plaintext key nonce additionalData : List Nat)
    (hk : key.length = 16 ∨ key.length = 24 ∨ key.length = 32) (hn : nonce.length = 12)
    (hl : 16 * (2 ^ 32 - 2) < plaintext.length) :
    ∃ out, Seal E plaintext key nonce additionalData = some (some out, none) ∧
      out.length = plaintext.length + 16 ∧
      ∀ k : Nat, k + 16 * 2 ^ 32 < plaintext.length →
        out.getD (k + 16 * 2 ^ 32) 0 ^^^ plaintext.getD (k + 16 * 2 ^ 32) 0 =
          out.getD k 0 ^^^ plaintext.getD k 0 := by
  have _ := hl
  obtain ⟨ct, g, h1, h2, _, h4, h5⟩ := Seal_eq E hE plaintext key nonce additionalData hk
  obtain ⟨ct1, g1, g2, g3⟩ := encWitchCounter_spec E hE plaintext key nonce
    (incrementCounter (genCounter nonce)) hk
    (length_incrementCounter _ (length_genCounter nonce))
  rw [h1] at g1
  have e : ct = ct1 := by
    have := Option.some.inj g1
    exact Option.some.inj (congrArg Prod.fst this)
  subst e
  refine ⟨_, h5, ?_, ?_⟩
  · simp only [List.length_append, List.length_zipWith, h2, h4,
      hE key _ hk (length_genCounter nonce), Nat.min_self]
  · intro k hk1
    have a1 : k + 16 * 2 ^ 32 < ct.length := by omega
    have a2 : k < ct.length := by omega
    have a3 : (k + 16 * 2 ^ 32) / 16 = k / 16 + 2 ^ 32 := by omega
    have a4 : (k + 16 * 2 ^ 32) % 16 = k % 16 := by omega
    simp only [List.getD_eq_getElem?_getD, List.getElem?_append_left a1,
      List.getElem?_append_left a2]
    rw [g3 _ hk1, g3 k (by omega), a3, a4, first_counter_period nonce hn _ _ (by norm_num)]
    generalize plaintext[k + 16 * 2 ^ 32]?.getD 0 = x
    generalize plaintext[k]?.getD 0 = y
    generalize (E key (incrementCounter^[k / 16] (incrementCounter (genCounter nonce))))[k % 16]?.getD 0 = m
    rw [Nat.xor_comm x m, Nat.xor_assoc, Nat.xor_self, Nat.xor_zero, Nat.xor_comm y m,
      Nat.xor_assoc, Nat.xor_self, Nat.xor_zero]

theorem Seal_long_plaintext_witness :
    BlockCipher xorCipher ∧ (List.replicate 16 0).length = 16 ∧
    (List.replicate 12 0).length = 12 ∧
    16 * (2 ^ 32 - 2) < (List.replicate (16 * (2 ^ 32 - 2) + 1) 0).length ∧
    ∃ out, Seal xorCipher (List.replicate (16 * (2 ^ 32 - 2) + 1) 0) (List.replicate 16 0)
        (List.replicate 12 0) [] = some (some out, none) ∧
      out.length = (List.replicate (16 * (2 ^ 32 - 2) + 1) 0).length + 16 ∧
      ∀ k : Nat, k + 16 * 2 ^ 32 < (List.replicate (16 * (2 ^ 32 - 2) + 1) 0).length →
        out.getD (k + 16 * 2 ^ 32) 0 ^^^
            (List.replicate (16 * (2 ^ 32 - 2) + 1) 0).getD (k + 16 * 2 ^ 32) 0 =
          out.getD k 0 ^^^ (List.replicate (16 * (2 ^ 32 - 2) + 1) 0).getD k 0 :=
  ⟨xorCipher_ok, List.length_replicate 16 0, List.length_replicate 12 0,
    by rw [List.length_replicate]; exact Nat.lt_succ_self _,
    Seal_long_plaintext xorCipher xorCipher_ok (List.replicate (16 * (2 ^ 32 - 2) + 1) 0)
      (List.replicate 16 0) (List.replicate 12 0) [] (Or.inl (List.length_replicate 16 0))
      (List.length_replicate 12 0)
      (by rw [List.length_replicate]; exact Nat.lt_succ_self _)⟩

/-- C6: counter mode is an involution.  For a key of 16, 24 or 32 bytes and a 16-byte
counter `c`, `encWitchCounter` applied to its own output, with the same key and
counter, returns the data it started from, whatever the length of the data. -/
theorem encWitchCounter_involution (E : List Nat → List Nat → List Nat) (hE : BlockCipher E)
    (data key nonce c : List Nat)
    (hk : key.length = 16 ∨ key.length = 24 ∨ key.length = 32) (hc : c.length = 16) :
    ∃ out, encWitchCounter E data key nonce c = some (some out, none) ∧
      encWitchCounter E out key nonce c = some (some data, none) := by
  obtain ⟨out, h1, h2, h3⟩ := encWitchCounter_spec E hE data key nonce c hk hc
  obtain ⟨back, g1, g2, g3⟩ := encWitchCounter_spec E hE out key nonce c hk hc
  refine ⟨out, h1, ?_⟩
  rw [g1]
  have e : back = data := by
    apply ext_get (by rw [g2, h2])
    intro k hk1
    rw [g3 k (by omega), h3 k (by omega), Nat.xor_assoc, Nat.xor_self, Nat.xor_zero]
  rw [e]

theorem encWitchCounter_involution_witness :
    BlockCipher xorCipher ∧ (List.replicate 16 3).length = 16 ∧
    (genCounter [1, 2, 3, 4, 5, 6, 7, 8, 9, 10, 11, 12]).length = 16 ∧
    ∃ out, encWitchCounter xorCipher (List.replicate 37 65) (List.replicate 16 3) []
        (genCounter [1, 2, 3, 4, 5, 6, 7, 8, 9, 10, 11, 12]) = some (some out, none) ∧
      encWitchCounter xorCipher out (List.replicate 16 3) []
        (genCounter [1, 2, 3, 4, 5, 6, 7, 8, 9, 10, 11, 12]) =
        some (some (List.replicate 37 65), none) :=
  ⟨xorCipher_ok, by decide, by decide,
    encWitchCounter_involution xorCipher xorCipher_ok (List.replicate 37 65)
      (List.replicate 16 3) [] (genCounter [1, 2, 3, 4, 5, 6, 7, 8, 9, 10, 11, 12])
      (Or.inl (by decide)) (by decide)⟩

/-- C7: for a key of 16, 24 or 32 bytes and a 16-byte counter `c`, `encWitchCounter`
returns, for every nonce argument, the same byte sequence `out`, of the length of the
data, with `out[i] = data[i] XOR E(key, c_j)[i mod 16]`, where `j = i / 16` and `c_j` is
`c` after `j` applications of `incrementCounter`. -/
theorem encWitchCounter_keystream (E : List Nat → List Nat → List Nat) (hE : BlockCipher E)
    (data key c : List Nat)
    (hk : key.length = 16 ∨ key.length = 24 ∨ key.length = 32) (hc : c.length = 16) :
    ∃ out, (∀ nonce, encWitchCounter E data key nonce c = some (some out, none)) ∧
      out.length = data.length ∧
      ∀ i : Nat, i < data.length →
        out.getD i 0 = data.getD i 0 ^^^ (E key (incrementCounter^[i / 16] c)).getD (i % 16) 0 := by
  obtain ⟨out, h1, h2, h3⟩ := encWitchCounter_spec E hE data key [] c hk hc
  refine ⟨out, ?_, h2, ?_⟩
  · intro nonce
    rw [← h1]
    rfl
  · intro i hi
    simp only [List.getD_eq_getElem?_getD]
    exact h3 i hi

theorem encWitchCounter_keystream_witness :
    BlockCipher xorCipher ∧ (List.replicate 32 9).length = 32 ∧
    (List.replicate 16 255).length = 16 ∧
    ∃ out, (∀ nonce, encWitchCounter xorCipher [10, 20, 30] (List.replicate 32 9) nonce
        (List.replicate 16 255) = some (some out, none)) ∧
      out.length = ([10, 20, 30] : List Nat).length ∧
      ∀ i : Nat, i < ([10, 20, 30] : List Nat).length →
        out.getD i 0 = ([10, 20, 30] : List Nat).getD i 0 ^^^
          (xorCipher (List.replicate 32 9)
            (incrementCounter^[i / 16] (List.replicate 16 255))).getD (i % 16) 0 :=
  ⟨xorCipher_ok, by decide, by decide,
    encWitchCounter_keystream xorCipher xorCipher_ok [10, 20, 30] (List.replicate 32 9)
      (List.replicate 16 255) (Or.inr (Or.inr (by decide))) (by decide)⟩

/-- C8: for a 16-byte hash subkey, `ghash` is the big-endian serialisation (high word,
then low word) of the Horner accumulation `x := mul (add x B) H` from `x = 0` over the
`ceil(len / 16)` zero-padded blocks of the associated data, then those of the
ciphertext, then the block of the two bit lengths. -/
theorem ghash_horner (cipherText additionalData hk : List Nat) (hl : hk.length = 16)
    (hhk : ∀ x ∈ hk, x < 256) (hct : ∀ x ∈ cipherText, x < 256)
    (had : ∀ x ∈ additionalData, x < 256) :
    ghash cipherText additionalData hk = some (ghashSpec cipherText additionalData hk) ∧
      (blocksOf additionalData).length = (additionalData.length + 15) / 16 ∧
      (blocksOf cipherText).length = (cipherText.length + 15) / 16 :=
  ⟨ghash_eq cipherText additionalData hk hl hhk hct had, by simp [blocksOf],
    by simp [blocksOf]⟩

theorem ghash_horner_witness :
    (List.replicate 16 200).length = 16 ∧ (∀ x ∈ List.replicate 16 200, x < 256) ∧
    (∀ x ∈ List.replicate 17 255, x < 256) ∧ (∀ x ∈ ([1, 2, 3] : List Nat), x < 256) ∧
    (ghash (List.replicate 17 255) [1, 2, 3] (List.replicate 16 200) =
        some (ghashSpec (List.replicate 17 255) [1, 2, 3] (List.replicate 16 200)) ∧
      (blocksOf [1, 2, 3]).length = (([1, 2, 3] : List Nat).length + 15) / 16 ∧
      (blocksOf (List.replicate 17 255)).length = ((List.replicate 17 255).length + 15) / 16) :=
  ⟨by decide, by decide, by decide, by decide,
    ghash_horner (List.replicate 17 255) [1, 2, 3] (List.replicate 16 200) (by decide)
      (by decide) (by decide) (by decide)⟩

/-- C9: `mul` is multiplication in GF(2^128) under the GCM convention.  With `toPoly u`
the polynomial over GF(2) whose coefficient of `x^i` is the `i`-th bit of `u` counted
from the most significant bit of the high word, the polynomial of `mul a b` is
`toPoly a * toPoly b` reduced modulo `x^128 + x^7 + x^2 + x + 1`, and `mul a b` is the
only 128-bit value with that polynomial; `{0x8000000000000000, 0}` is the polynomial 1,
and `mul {0xC000000000000000, 0} {0x8000000000000000, 1} = {0x2100000000000000, 1}`. -/
theorem mul_gf128 (a b : uint128) (ha : a.wf) (hb : b.wf) :
    toPoly (mul a b) = Polynomial.modByMonic (toPoly a * toPoly b) gcmPoly ∧
    (mul a b).wf ∧
    (∀ c : uint128, c.wf →
      toPoly c = Polynomial.modByMonic (toPoly a * toPoly b) gcmPoly → c = mul a b) ∧
    toPoly ⟨0x8000000000000000, 0⟩ = 1 ∧
    mul ⟨0xC000000000000000, 0⟩ ⟨0x8000000000000000, 1⟩ = ⟨0x2100000000000000, 1⟩ := by
  obtain ⟨w, e⟩ := mul_spec a b ha hb
  refine ⟨e, w, ?_, toPoly_one, by decide⟩
  intro c hc h
  exact toPoly_injective c (mul a b) hc w (h.trans e.symm)

theorem mul_gf128_witness :
    (⟨0xC000000000000000, 0⟩ : uint128).wf ∧ (⟨0x8000000000000000, 1⟩ : uint128).wf ∧
    (toPoly (mul ⟨0xC000000000000000, 0⟩ ⟨0x8000000000000000, 1⟩) =
      Polynomial.modByMonic
        (toPoly ⟨0xC000000000000000, 0⟩ * toPoly ⟨0x8000000000000000, 1⟩) gcmPoly ∧
    (mul ⟨0xC000000000000000, 0⟩ ⟨0x8000000000000000, 1⟩).wf ∧
    (∀ c : uint128, c.wf →
      toPoly c = Polynomial.modByMonic
        (toPoly ⟨0xC000000000000000, 0⟩ * toPoly ⟨0x8000000000000000, 1⟩) gcmPoly →
      c = mul ⟨0xC000000000000000, 0⟩ ⟨0x8000000000000000, 1⟩) ∧
    toPoly ⟨0x8000000000000000, 0⟩ = 1 ∧
    mul ⟨0xC000000000000000, 0⟩ ⟨0x8000000000000000, 1⟩ = ⟨0x2100000000000000, 1⟩) :=
  ⟨by decide, by decide,
    mul_gf128 ⟨0xC000000000000000, 0⟩ ⟨0x8000000000000000, 1⟩ (by decide) (by decide)⟩

/-- C10: `mul` is commutative on 128-bit values: `mul a b = mul b a`. -/
theorem mul_commutative (a b : uint128) (ha : a.wf) (hb : b.wf) : mul a b = mul b a := by
  obtain ⟨w1, e1⟩ := mul_spec a b ha hb
  obtain ⟨w2, e2⟩ := mul_spec b a hb ha
  apply toPoly_injective _ _ w1 w2
  rw [e1, e2, mul_comm]

theorem mul_commutative_witness :
    (⟨0xC000000000000000, 0⟩ : uint128).wf ∧ (⟨0x8000000000000000, 1⟩ : uint128).wf ∧
    mul ⟨0xC000000000000000, 0⟩ ⟨0x8000000000000000, 1⟩ =
      mul ⟨0x8000000000000000, 1⟩ ⟨0xC000000000000000, 0⟩ :=
  ⟨by decide, by decide,
    mul_commutative ⟨0xC000000000000000, 0⟩ ⟨0x8000000000000000, 1⟩ (by decide) (by decide)⟩

/-- C11: zero annihilates under `mul`: `mul 0 x = 0` and `mul x 0 = 0` for every `x`,
where `0` is the all-zero value; in particular for the inputs of the tests "0*1",
"1*0" and "0*0". -/
theorem mul_zero_annihilates :
    (∀ x : uint128, mul ⟨0, 0⟩ x = ⟨0, 0⟩) ∧ (∀ x : uint128, mul x ⟨0, 0⟩ = ⟨0, 0⟩) ∧
    mul ⟨0, 0⟩ ⟨0x8000000000000000, 0⟩ = ⟨0, 0⟩ ∧
    mul ⟨0x8000000000000000, 0⟩ ⟨0, 0⟩ = ⟨0, 0⟩ ∧
    mul ⟨0, 0⟩ ⟨0, 0⟩ = ⟨0, 0⟩ :=
  ⟨fun x => mulLoop_zero_left 128 x ⟨0, 0⟩, fun x => mulLoop_zero_right x 128,
    by decide, by decide, by decide⟩

/-- C12: the value `one = {0x8000000000000000, 0}` is the multiplicative identity of
`mul`: `mul one x = x` for every 128-bit value `x`. -/
theorem mul_one_left (x : uint128) (hx : x.wf) : mul ⟨0x8000000000000000, 0⟩ x = x := by
  have h1 : (⟨0x8000000000000000, 0⟩ : uint128).wf := by decide
  apply eq_of_mk_toPoly_eq _ _ (mul_wf _ _ h1 hx) hx
  rw [mk_toPoly_mul _ _ h1 hx, toPoly_one, map_one, one_mul]

theorem mul_one_left_witness :
    (⟨0x0123456789abcdef, 0xfedcba9876543210⟩ : uint128).wf ∧
    mul ⟨0x8000000000000000, 0⟩ ⟨0x0123456789abcdef, 0xfedcba9876543210⟩ =
      ⟨0x0123456789abcdef, 0xfedcba9876543210⟩ :=
  ⟨by decide, mul_one_left ⟨0x0123456789abcdef, 0xfedcba9876543210⟩ (by decide)⟩

/-- C13: `add` is the bitwise exclusive or of the two words, and it is commutative,
associative, self-inverse and has the all-zero value as identity. -/
theorem add_xor_group (a b c : uint128) :
    add a b = ⟨a.lhs ^^^ b.lhs, a.rhs ^^^ b.rhs⟩ ∧
    add a b = add b a ∧
    add (add a b) c = add a (add b c) ∧
    add a a = ⟨0, 0⟩ ∧
    add a ⟨0, 0⟩ = a := by
  refine ⟨rfl, ?_, ?_, ?_, ?_⟩
  · simp only [add, uint128.xor, Nat.xor_comm]
  · simp only [add, uint128.xor, Nat.xor_assoc]
  · simp only [add, uint128.xor, Nat.xor_self]
  · simp only [add, uint128.xor, Nat.xor_zero]

/-- C14: for a nonce of exactly 12 bytes, `genCounter nonce` is the 16-byte block whose
first 12 bytes are the nonce and whose last 4 bytes are `00 00 00 01`. -/
theorem genCounter_layout (nonce : List Nat) (hn : nonce.length = 12) :
    genCounter nonce = nonce ++ [0x00, 0x00, 0x00, 0x01] ∧
    (genCounter nonce).length = 16 ∧
    (genCounter nonce).take 12 = nonce ∧
    (genCounter nonce).drop 12 = [0x00, 0x00, 0x00, 0x01] := by
  have e := genCounter_twelve nonce hn
  refine ⟨e, length_genCounter nonce, ?_, ?_⟩
  · rw [e, ← hn, List.take_left]
  · rw [e, ← hn, List.drop_left]

theorem genCounter_layout_witness :
    ([0x00, 0x01, 0x02, 0x03, 0x04, 0x05, 0x06, 0x07, 0x08, 0x09, 0x0A, 0x0B] :
      List Nat).length = 12 ∧
    (genCounter [0x00, 0x01, 0x02, 0x03, 0x04, 0x05, 0x06, 0x07, 0x08, 0x09, 0x0A, 0x0B] =
      [0x00, 0x01, 0x02, 0x03, 0x04, 0x05, 0x06, 0x07, 0x08, 0x09, 0x0A, 0x0B] ++
        [0x00, 0x00, 0x00, 0x01] ∧
    (genCounter
      [0x00, 0x01, 0x02, 0x03, 0x04, 0x05, 0x06, 0x07, 0x08, 0x09, 0x0A, 0x0B]).length = 16 ∧
    (genCounter
      [0x00, 0x01, 0x02, 0x03, 0x04, 0x05, 0x06, 0x07, 0x08, 0x09, 0x0A, 0x0B]).take 12 =
      [0x00, 0x01, 0x02, 0x03, 0x04, 0x05, 0x06, 0x07, 0x08, 0x09, 0x0A, 0x0B] ∧
    (genCounter
      [0x00, 0x01, 0x02, 0x03, 0x04, 0x05, 0x06, 0x07, 0x08, 0x09, 0x0A, 0x0B]).drop 12 =
      [0x00, 0x00, 0x00, 0x01]) :=
  ⟨by decide,
    genCounter_layout [0x00, 0x01, 0x02, 0x03, 0x04, 0x05, 0x06, 0x07, 0x08, 0x09, 0x0A, 0x0B]
      (by decide)⟩

/-- C15: for a 16-byte counter block `c` whose last four bytes encode the big-endian
32-bit value `v`, `n` applications of `incrementCounter` leave the first 12 bytes as
they are and set the last four to the big-endian bytes of `(v + n) mod 2^32`.  One
increment of `... FF FF FF FF` gives `... 00 00 00 00`, and 1000 increments of
`genCounter nonce`, for a 12-byte nonce, give `nonce ‖ 00 00 03 E9`. -/
theorem incrementCounter_iterate (c : List Nat) (hc : c.length = 16)
    (hb : ∀ x ∈ c.drop 12, x < 256) (n : Nat) :
    ((incrementCounter^[n] c).take 12 = c.take 12 ∧
      (incrementCounter^[n] c).drop 12 = beBytes32 ((beValue (c.drop 12) + n) % 2 ^ 32)) ∧
    (∀ p : List Nat, p.length = 12 →
      incrementCounter (p ++ [0xFF, 0xFF, 0xFF, 0xFF]) = p ++ [0x00, 0x00, 0x00, 0x00]) ∧
    (∀ nonce : List Nat, nonce.length = 12 →
      incrementCounter^[1000] (genCounter nonce) = nonce ++ [0x00, 0x00, 0x03, 0xE9]) := by
  have hp : (c.take 12).length = 12 := by simp [hc]
  refine ⟨?_, ?_, ?_⟩
  · rw [iterate_incrementCounter_eq c hc hb n]
    constructor
    · rw [List.take_append_of_le_length (by omega), List.take_take]
      simp
    · rw [List.drop_append_of_le_length (by omega), List.drop_eq_nil_of_le (by omega),
        List.nil_append]
  · intro p hp1
    rw [incrementCounter_append p hp1 0xFF 0xFF 0xFF 0xFF (by omega) (by omega) (by omega)]
    rfl
  · intro nonce hn
    have e1 : genCounter nonce = nonce ++ beBytes32 1 := genCounter_twelve nonce hn
    rw [e1, iterate_incrementCounter_beBytes32 nonce hn 1000 1 (by norm_num)]
    rfl

theorem incrementCounter_iterate_witness :
    ([9, 9, 9, 9, 9, 9, 9, 9, 9, 9, 9, 9, 255, 255, 255, 254] : List Nat).length = 16 ∧
    (∀ x ∈ ([9, 9, 9, 9, 9, 9, 9, 9, 9, 9, 9, 9, 255, 255, 255, 254] : List Nat).drop 12,
      x < 256) ∧
    (((incrementCounter^[3] [9, 9, 9, 9, 9, 9, 9, 9, 9, 9, 9, 9, 255, 255, 255, 254]).take 12 =
        ([9, 9, 9, 9, 9, 9, 9, 9, 9, 9, 9, 9, 255, 255, 255, 254] : List Nat).take 12 ∧
      (incrementCounter^[3] [9, 9, 9, 9, 9, 9, 9, 9, 9, 9, 9, 9, 255, 255, 255, 254]).drop 12 =
        beBytes32 ((beValue
          (([9, 9, 9, 9, 9, 9, 9, 9, 9, 9, 9, 9, 255, 255, 255, 254] : List Nat).drop 12) + 3) %
            2 ^ 32)) ∧
    (∀ p : List Nat, p.length = 12 →
      incrementCounter (p ++ [0xFF, 0xFF, 0xFF, 0xFF]) = p ++ [0x00, 0x00, 0x00, 0x00]) ∧
    (∀ nonce : List Nat, nonce.length = 12 →
      incrementCounter^[1000] (genCounter nonce) = nonce ++ [0x00, 0x00, 0x03, 0xE9])) :=
  ⟨by decide, by decide,
    incrementCounter_iterate [9, 9, 9, 9, 9, 9, 9, 9, 9, 9, 9, 9, 255, 255, 255, 254]
      (by decide) (by decide) 3⟩

/-- C16: `encWitchCounter` agrees with standard counter mode, which increments the whole
16-byte counter as one big-endian 128-bit integer.  For a key of 16, 24 or 32 bytes, a
16-byte counter `c` whose last four bytes encode `v`, and data with
`v + ceil(len(data) / 16) ≤ 2^32`, the result is the data exclusive-or the first
`len(data)` bytes of `E(key, c) ‖ E(key, c + 1) ‖ …`; and `enc` with a 12-byte nonce is
standard counter mode started at `genCounter nonce`. -/
theorem encWitchCounter_standard_ctr (E : List Nat → List Nat → List Nat) (hE : BlockCipher E)
    (key : List Nat) (hk : key.length = 16 ∨ key.length = 24 ∨ key.length = 32) :
    (∀ data nonce c : List Nat, c.length = 16 → (∀ x ∈ c, x < 256) →
      beValue (c.drop 12) + (data.length + 15) / 16 ≤ 2 ^ 32 →
      encWitchCounter E data key nonce c = some (some (stdCTR E key c data), none)) ∧
    (∀ plaintext nonce : List Nat, nonce.length = 12 → (∀ x ∈ nonce, x < 256) →
      1 + (plaintext.length + 15) / 16 ≤ 2 ^ 32 →
      enc E plaintext key nonce =
        some (some (stdCTR E key (genCounter nonce) plaintext), none)) := by
  constructor
  · intro data nonce c hc hb hw
    exact encWitchCounter_eq_stdCTR E hE data key nonce c hk hc hb hw
  · intro plaintext nonce hn hb hw
    have hv : beValue ((genCounter nonce).drop 12) = 1 := by
      rw [genCounter_twelve nonce hn, ← hn, List.drop_left]
      rfl
    exact encWitchCounter_eq_stdCTR E hE plaintext key nonce (genCounter nonce) hk
      (length_genCounter nonce) (genCounter_lt nonce hb) (by rw [hv]; exact hw)

theorem encWitchCounter_standard_ctr_witness :
    BlockCipher xorCipher ∧ (List.replicate 32 7).length = 32 ∧
    ((∀ data nonce c : List Nat, c.length = 16 → (∀ x ∈ c, x < 256) →
      beValue (c.drop 12) + (data.length + 15) / 16 ≤ 2 ^ 32 →
      encWitchCounter xorCipher data (List.replicate 32 7) nonce c =
        some (some (stdCTR xorCipher (List.replicate 32 7) c data), none)) ∧
    (∀ plaintext nonce : List Nat, nonce.length = 12 → (∀ x ∈ nonce, x < 256) →
      1 + (plaintext.length + 15) / 16 ≤ 2 ^ 32 →
      enc xorCipher plaintext (List.replicate 32 7) nonce =
        some (some (stdCTR xorCipher (List.replicate 32 7) (genCounter nonce) plaintext),
          none))) :=
  ⟨xorCipher_ok, by decide,
    encWitchCounter_standard_ctr xorCipher xorCipher_ok (List.replicate 32 7)
      (Or.inr (Or.inr (by decide)))⟩

/-- C17: `mul` distributes over `add` in both arguments. -/
theorem mul_distributes (a b c : uint128) (ha : a.wf) (hb : b.wf) (hc : c.wf) :
    mul a (add b c) = add (mul a b) (mul a c) ∧
    mul (add a b) c = add (mul a c) (mul b c) := by
  constructor
  · apply eq_of_mk_toPoly_eq _ _ (mul_wf _ _ ha (add_wf b c hb hc))
      (add_wf _ _ (mul_wf a b ha hb) (mul_wf a c ha hc))
    rw [mk_toPoly_mul _ _ ha (add_wf b c hb hc), toPoly_add, toPoly_add, map_add, map_add,
      mk_toPoly_mul a b ha hb, mk_toPoly_mul a c ha hc, mul_add]
  · apply eq_of_mk_toPoly_eq _ _ (mul_wf _ _ (add_wf a b ha hb) hc)
      (add_wf _ _ (mul_wf a c ha hc) (mul_wf b c hb hc))
    rw [mk_toPoly_mul _ _ (add_wf a b ha hb) hc, toPoly_add, toPoly_add, map_add, map_add,
      mk_toPoly_mul a c ha hc, mk_toPoly_mul b c hb hc, add_mul]

theorem mul_distributes_witness :
    (⟨0xC000000000000000, 0⟩ : uint128).wf ∧ (⟨0x8000000000000000, 1⟩ : uint128).wf ∧
    (⟨0x0123456789abcdef, 0xfedcba9876543210⟩ : uint128).wf ∧
    (mul ⟨0xC000000000000000, 0⟩
        (add ⟨0x8000000000000000, 1⟩ ⟨0x0123456789abcdef, 0xfedcba9876543210⟩) =
      add (mul ⟨0xC000000000000000, 0⟩ ⟨0x8000000000000000, 1⟩)
        (mul ⟨0xC000000000000000, 0⟩ ⟨0x0123456789abcdef, 0xfedcba9876543210⟩) ∧
    mul (add ⟨0xC000000000000000, 0⟩ ⟨0x8000000000000000, 1⟩)
        ⟨0x0123456789abcdef, 0xfedcba9876543210⟩ =
      add (mul ⟨0xC000000000000000, 0⟩ ⟨0x0123456789abcdef, 0xfedcba9876543210⟩)
        (mul ⟨0x8000000000000000, 1⟩ ⟨0x0123456789abcdef, 0xfedcba9876543210⟩)) :=
  ⟨by decide, by decide, by decide,
    mul_distributes ⟨0xC000000000000000, 0⟩ ⟨0x8000000000000000, 1⟩
      ⟨0x0123456789abcdef, 0xfedcba9876543210⟩ (by decide) (by decide) (by decide)⟩

/-- C18: `mul` is associative: `mul (mul a b) c = mul a (mul b c)`. -/
theorem mul_associative (a b c : uint128) (ha : a.wf) (hb : b.wf) (hc : c.wf) :
    mul (mul a b) c = mul a (mul b c) := by
  apply eq_of_mk_toPoly_eq _ _ (mul_wf _ _ (mul_wf a b ha hb) hc)
    (mul_wf _ _ ha (mul_wf b c hb hc))
  rw [mk_toPoly_mul _ _ (mul_wf a b ha hb) hc, mk_toPoly_mul a b ha hb,
    mk_toPoly_mul _ _ ha (mul_wf b c hb hc), mk_toPoly_mul b c hb hc, mul_assoc]

theorem mul_associative_witness :
    (⟨0xC000000000000000, 0⟩ : uint128).wf ∧ (⟨0x8000000000000000, 1⟩ : uint128).wf ∧
    (⟨0x0123456789abcdef, 0xfedcba9876543210⟩ : uint128).wf ∧
    mul (mul ⟨0xC000000000000000, 0⟩ ⟨0x8000000000000000, 1⟩)
        ⟨0x0123456789abcdef, 0xfedcba9876543210⟩ =
      mul ⟨0xC000000000000000, 0⟩
        (mul ⟨0x8000000000000000, 1⟩ ⟨0x0123456789abcdef, 0xfedcba9876543210⟩) :=
  ⟨by decide, by decide, by decide,
    mul_associative ⟨0xC000000000000000, 0⟩ ⟨0x8000000000000000, 1⟩
      ⟨0x0123456789abcdef, 0xfedcba9876543210⟩ (by decide) (by decide) (by decide)⟩

/-- C19: `Seal` does not distinguish a nonce shorter than 12 bytes from the same nonce
padded on the right with zero bytes to 12 bytes: both give the same counter block and
the same result of `Seal`. -/
theorem Seal_short_nonce_padded (E : List Nat → List Nat → List Nat)
    (plaintext key nonce additionalData : List Nat) (hn : nonce.length < 12) :
    (nonce ++ List.replicate (12 - nonce.length) 0).length = 12 ∧
    genCounter nonce = genCounter (nonce ++ List.replicate (12 - nonce.length) 0) ∧
    Seal E plaintext key nonce additionalData =
      Seal E plaintext key (nonce ++ List.replicate (12 - nonce.length) 0) additionalData := by
  have h := genCounter_pad nonce hn
  refine ⟨by simp; omega, h, ?_⟩
  simp only [Seal, ← h,
    encWitchCounter_nonce E plaintext key (nonce ++ List.replicate (12 - nonce.length) 0) nonce]

theorem Seal_short_nonce_padded_witness :
    ([1, 2, 3] : List Nat).length < 12 ∧
    (([1, 2, 3] ++ List.replicate (12 - ([1, 2, 3] : List Nat).length) 0).length = 12 ∧
    genCounter [1, 2, 3] =
      genCounter ([1, 2, 3] ++ List.replicate (12 - ([1, 2, 3] : List Nat).length) 0) ∧
    Seal xorCipher [7, 7] (List.replicate 16 5) [1, 2, 3] [4] =
      Seal xorCipher [7, 7] (List.replicate 16 5)
        ([1, 2, 3] ++ List.replicate (12 - ([1, 2, 3] : List Nat).length) 0) [4]) :=
  ⟨by decide,
    Seal_short_nonce_padded xorCipher [7, 7] (List.replicate 16 5) [1, 2, 3] [4] (by decide)⟩

/-- C20: `Seal` is total on every input with a key of 16, 24 or 32 bytes.  For a
plaintext, nonce and associated data of any length, no step panics: the counter block
has 16 bytes and its counter slice 4, `encWitchCounter`, `newUint128`, both calls of
`split`, `ghash` and `xors` return, and `Seal` returns a sealed output with a nil
error. -/
theorem Seal_total (E : List Nat → List Nat → List Nat) (hE : BlockCipher E)
    (plaintext key nonce additionalData : List Nat)
    (hk : key.length = 16 ∨ key.length = 24 ∨ key.length = 32) :
    (genCounter nonce).length = 16 ∧ ((genCounter nonce).drop (size - 4)).length = 4 ∧
    (incrementCounter (genCounter nonce)).length = 16 ∧
    ∃ ct h ads cts g tags,
      encWitchCounter E plaintext key nonce (incrementCounter (genCounter nonce)) =
        some (some ct, none) ∧
      newUint128 (E key (make 16)) = some h ∧
      split additionalData = some ads ∧
      split ct = some cts ∧
      ghash ct additionalData (E key (make 16)) = some g ∧
      xors (E key (genCounter nonce)) g = some tags ∧
      Seal E plaintext key nonce additionalData = some (some (ct ++ tags), none) := by
  have hJ := length_genCounter nonce
  obtain ⟨ct, g, h1, _, h3, h4, h5⟩ := Seal_eq E hE plaintext key nonce additionalData hk
  obtain ⟨ads, hads⟩ := split_total additionalData
  obtain ⟨cts, hcts⟩ := split_total ct
  have hz : (E key (make 16)).length = 16 := hE key _ hk (length_make 16)
  have hn : ¬ (E key (make 16)).length < 16 := by omega
  have hx := xors_eq_zipWith (E key (genCounter nonce)) g
    (h4.trans (hE key _ hk hJ).symm)
  have hnu : newUint128 (E key (make 16)) =
      some ⟨Uint64 ((E key (make 16)).take 8), Uint64 ((E key (make 16)).drop 8)⟩ := by
    simp only [newUint128, hn, if_false]
  exact ⟨hJ, by simp [hJ, size], length_incrementCounter _ hJ, ct, _, ads, cts, g, _, h1, hnu,
    hads, hcts, h3, hx, h5⟩

theorem Seal_total_witness :
    BlockCipher xorCipher ∧ (List.replicate 24 1).length = 24 ∧
    ((genCounter []).length = 16 ∧ ((genCounter []).drop (size - 4)).length = 4 ∧
    (incrementCounter (genCounter [])).length = 16 ∧
    ∃ ct h ads cts g tags,
      encWitchCounter xorCipher [] (List.replicate 24 1) []
        (incrementCounter (genCounter [])) = some (some ct, none) ∧
      newUint128 (xorCipher (List.replicate 24 1) (make 16)) = some h ∧
      split [] = some ads ∧
      split ct = some cts ∧
      ghash ct [] (xorCipher (List.replicate 24 1) (make 16)) = some g ∧
      xors (xorCipher (List.replicate 24 1) (genCounter [])) g = some tags ∧
      Seal xorCipher [] (List.replicate 24 1) [] [] = some (some (ct ++ tags), none)) :=
  ⟨xorCipher_ok, by decide,
    Seal_total xorCipher xorCipher_ok [] (List.replicate 24 1) [] []
      (Or.inr (Or.inl (by decide)))⟩

end GoAesGcm
